import Mathlib

/-!
Verification of the ridechecks assignment engine (`logic.py`).

Python dictionaries (which preserve insertion order) are modelled as
association lists `List (String × α)`; Python `int` is modelled as `Int`.
The implicit `random.shuffle` calls are modelled by explicit permutation
oracles: `dfs` receives a function from the current partial assignment
(which uniquely identifies a search node) and the list to shuffle to the
shuffled list, and the hillclimbing phase receives analogous oracles
keyed by the current mutable state.  Theorems that depend on the shuffles
behaving like real shuffles carry `List.Perm` hypotheses for the oracles.
-/

namespace Ridechecks

/-- Ride durations: the Python dict {ride: time}. -/
abbrev TimeMap := List (String × Int)

/-- Capabilities: the Python dict {worker: set of rides}. -/
abbrev CapMap := List (String × List String)

/-- An assignment: the Python dict {ride: worker}. -/
abbrev Assignment := List (String × String)

/-- Python `d[k]` as an Option: the value at the first entry with key `k`. -/
def alookup {α : Type} : List (String × α) → String → Option α
  | [], _ => none
  | p :: rest, k => if p.1 = k then some p.2 else alookup rest k

/-- Lookup with a default value. -/
def alookupD {α : Type} (m : List (String × α)) (k : String) (d : α) : α :=
  (alookup m k).getD d

/-- Python `d[k] = v` for a key `k` already present: replace the value at
every entry whose key is `k`, keeping its position. -/
def updateA {α : Type} (m : List (String × α)) (k : String) (v : α) : List (String × α) :=
  m.map (fun p => if p.1 = k then (k, v) else p)

/-- Python `d[k] = v` in general: update if present, append otherwise. -/
def dictInsert {α : Type} (m : List (String × α)) (k : String) (v : α) : List (String × α) :=
  if k ∈ m.map Prod.fst then updateA m k v else m ++ [(k, v)]

/-- Source `without_keys`: {k: v for k, v in d.items() if k not in keys_to_exclude}. -/
def without_keys {α : Type} (d : List (String × α)) (keys_to_exclude : List String) :
    List (String × α) :=
  d.filter (fun p => !(keys_to_exclude.contains p.1))

/-- Python `ride in workers_can_check[worker]`. -/
def capableB (wcc : CapMap) (ride worker : String) : Bool :=
  (alookupD wcc worker []).contains ride

/-- Total duration of the rides that `m` assigns to worker `w`. -/
def assignedSum (rt : TimeMap) (m : Assignment) (w : String) : Int :=
  ((m.filter (fun p => p.2 == w)).map (fun p => alookupD rt p.1 0)).sum

/-- Sum of the squares of the remaining times; the hillclimb variant. -/
def sumSq (m : TimeMap) : Int :=
  (m.map (fun p => p.2 * p.2)).sum

/-! Lemmas about the association-list primitives. -/

theorem alookup_nil {α : Type} (k : String) : alookup ([] : List (String × α)) k = none := rfl

theorem alookup_cons {α : Type} (p : String × α) (rest : List (String × α)) (k : String) :
    alookup (p :: rest) k = if p.1 = k then some p.2 else alookup rest k := rfl

theorem updateA_cons {α : Type} (p : String × α) (rest : List (String × α)) (k : String)
    (v : α) :
    updateA (p :: rest) k v = (if p.1 = k then (k, v) else p) :: updateA rest k v := by
  by_cases h : p.1 = k <;> simp [updateA, h]

theorem alookup_eq_none {α : Type} (m : List (String × α)) (k : String) :
    alookup m k = none ↔ k ∉ m.map Prod.fst := by
  induction m with
  | nil => simp [alookup]
  | cons p rest ih =>
    rw [alookup_cons]
    by_cases h : p.1 = k
    · simp [h]
    · have h' : ¬(k = p.1) := fun he => h he.symm
      simp [h, h', ih]

theorem alookup_mem {α : Type} {m : List (String × α)} {k : String} {v : α}
    (h : alookup m k = some v) : (k, v) ∈ m := by
  induction m with
  | nil => exact absurd h (by simp [alookup])
  | cons p rest ih =>
    rw [alookup_cons] at h
    by_cases hp : p.1 = k
    · rw [if_pos hp] at h
      have h2 : p.2 = v := Option.some_inj.mp h
      have hpe : p = (k, v) := Prod.ext hp h2
      rw [← hpe]
      exact List.mem_cons_self _ _
    · rw [if_neg hp] at h
      exact List.mem_cons_of_mem _ (ih h)

theorem mem_keys_of_alookup {α : Type} {m : List (String × α)} {k : String} {v : α}
    (h : alookup m k = some v) : k ∈ m.map Prod.fst :=
  List.mem_map.mpr ⟨(k, v), alookup_mem h, rfl⟩

theorem alookup_isSome_of_mem_keys {α : Type} {m : List (String × α)} {k : String}
    (h : k ∈ m.map Prod.fst) : ∃ v, alookup m k = some v := by
  cases hv : alookup m k with
  | none => exact absurd h ((alookup_eq_none m k).mp hv)
  | some v => exact ⟨v, rfl⟩

theorem alookup_of_mem_nodup {α : Type} {m : List (String × α)} {k : String} {v : α}
    (hmem : (k, v) ∈ m) (hnd : (m.map Prod.fst).Nodup) : alookup m k = some v := by
  induction m with
  | nil => simp at hmem
  | cons p rest ih =>
    simp only [List.map_cons, List.nodup_cons] at hnd
    rw [alookup_cons]
    rcases List.mem_cons.mp hmem with h | h
    · rw [← h]
      simp
    · have hk : k ∈ rest.map Prod.fst := List.mem_map.mpr ⟨(k, v), h, rfl⟩
      have hne : p.1 ≠ k := fun he => hnd.1 (he ▸ hk)
      rw [if_neg hne]
      exact ih h hnd.2

theorem updateA_keys {α : Type} (m : List (String × α)) (k : String) (v : α) :
    (updateA m k v).map Prod.fst = m.map Prod.fst := by
  unfold updateA
  rw [List.map_map]
  apply List.map_congr_left
  intro p _
  by_cases h : p.1 = k
  · simp [Function.comp, h]
  · simp [Function.comp, h]

theorem updateA_not_mem {α : Type} {m : List (String × α)} {k : String} (v : α)
    (h : k ∉ m.map Prod.fst) : updateA m k v = m := by
  induction m with
  | nil => rfl
  | cons p rest ih =>
    simp only [List.map_cons, List.mem_cons, not_or] at h
    have hne : p.1 ≠ k := fun he => h.1 he.symm
    rw [updateA_cons, if_neg hne, ih h.2]

theorem alookup_updateA_self {α : Type} {m : List (String × α)} {k : String} (v : α)
    (h : k ∈ m.map Prod.fst) : alookup (updateA m k v) k = some v := by
  induction m with
  | nil => simp at h
  | cons p rest ih =>
    rw [updateA_cons]
    by_cases hp : p.1 = k
    · rw [if_pos hp, alookup_cons, if_pos rfl]
    · rw [if_neg hp, alookup_cons, if_neg hp]
      simp only [List.map_cons, List.mem_cons] at h
      rcases h with h | h
      · exact absurd h.symm hp
      · exact ih h

theorem alookup_updateA_ne {α : Type} (m : List (String × α)) {k k' : String} (v : α)
    (h : k' ≠ k) : alookup (updateA m k v) k' = alookup m k' := by
  induction m with
  | nil => rfl
  | cons p rest ih =>
    rw [updateA_cons]
    by_cases hp : p.1 = k
    · rw [if_pos hp, alookup_cons, alookup_cons]
      have h1 : ¬(k = k') := fun he => h he.symm
      have h2 : ¬(p.1 = k') := fun he => h (he.symm.trans hp)
      rw [if_neg h1, if_neg h2]
      exact ih
    · rw [if_neg hp, alookup_cons, alookup_cons]
      by_cases hk' : p.1 = k'
      · rw [if_pos hk', if_pos hk']
      · rw [if_neg hk', if_neg hk']
        exact ih

theorem mem_updateA {α : Type} {m : List (String × α)} {k : String} {v : α} {p : String × α}
    (h : p ∈ updateA m k v) : p = (k, v) ∨ p ∈ m := by
  rcases List.mem_map.mp h with ⟨q, hq, he⟩
  by_cases hk : q.1 = k
  · rw [if_pos hk] at he
    exact Or.inl he.symm
  · rw [if_neg hk] at he
    exact Or.inr (he ▸ hq)

theorem alookupD_nonneg {m : TimeMap} (h : ∀ p ∈ m, 0 ≤ p.2) (k : String) :
    0 ≤ alookupD m k 0 := by
  cases hv : alookup m k with
  | none => simp [alookupD, hv]
  | some v =>
    simp only [alookupD, hv, Option.getD_some]
    exact h _ (alookup_mem hv)

theorem alookupD_updateA_self {α : Type} {m : List (String × α)} {k : String} (v d : α)
    (h : k ∈ m.map Prod.fst) : alookupD (updateA m k v) k d = v := by
  simp [alookupD, alookup_updateA_self v h]

theorem alookupD_updateA_ne {α : Type} (m : List (String × α)) {k k' : String} (v d : α)
    (h : k' ≠ k) : alookupD (updateA m k v) k' d = alookupD m k' d := by
  simp [alookupD, alookup_updateA_ne m v h]

/-! Lemmas about `assignedSum` and `sumSq`. -/

theorem assignedSum_nil (rt : TimeMap) (w : String) : assignedSum rt [] w = 0 := rfl

theorem assignedSum_append (rt : TimeMap) (a b : Assignment) (w : String) :
    assignedSum rt (a ++ b) w = assignedSum rt a w + assignedSum rt b w := by
  simp [assignedSum, List.filter_append]

theorem assignedSum_cons (rt : TimeMap) (p : String × String) (m : Assignment) (w : String) :
    assignedSum rt (p :: m) w =
      (if p.2 = w then alookupD rt p.1 0 else 0) + assignedSum rt m w := by
  by_cases h : p.2 = w
  · simp [assignedSum, List.filter_cons, h]
  · simp [assignedSum, List.filter_cons, h]

theorem assignedSum_singleton (rt : TimeMap) (r w' w : String) :
    assignedSum rt [(r, w')] w = if w' = w then alookupD rt r 0 else 0 := by
  rw [show ([(r, w')] : Assignment) = (r, w') :: [] from rfl, assignedSum_cons,
    assignedSum_nil, add_zero]

theorem assignedSum_nonneg (rt : TimeMap) (m : Assignment) (w : String)
    (hd : ∀ p ∈ rt, 0 ≤ p.2) : 0 ≤ assignedSum rt m w := by
  refine List.sum_nonneg ?_
  intro x hx
  rcases List.mem_map.mp hx with ⟨p, _, he⟩
  exact he ▸ alookupD_nonneg hd p.1

theorem assignedSum_eq_zero (rt : TimeMap) (m : Assignment) (w : String)
    (h : ∀ p ∈ m, p.2 ≠ w) : assignedSum rt m w = 0 := by
  have : m.filter (fun p => p.2 == w) = [] := by
    rw [List.filter_eq_nil_iff]
    intro p hp
    simpa using h p hp
  simp [assignedSum, this]

theorem assignedSum_removeKey (rt : TimeMap) {m : Assignment} {r₀ w₀ : String}
    (hnd : (m.map Prod.fst).Nodup) (hmem : (r₀, w₀) ∈ m) (w : String) :
    assignedSum rt m w =
      assignedSum rt (m.filter (fun p => !(p.1 == r₀))) w +
        (if w₀ = w then alookupD rt r₀ 0 else 0) := by
  induction m with
  | nil => simp at hmem
  | cons p rest ih =>
    simp only [List.map_cons, List.nodup_cons] at hnd
    rcases List.mem_cons.mp hmem with h | h
    · have hp1 : p.1 = r₀ := by rw [← h]
      have hp2 : p.2 = w₀ := by rw [← h]
      have hr : r₀ ∉ rest.map Prod.fst := by rw [← hp1]; exact hnd.1
      have hfil : rest.filter (fun q => !(q.1 == r₀)) = rest := by
        rw [List.filter_eq_self]
        intro q hq
        have : q.1 ≠ r₀ := fun he => hr (he ▸ List.mem_map.mpr ⟨q, hq, rfl⟩)
        simp [this]
      rw [List.filter_cons]
      simp only [hp1, beq_self_eq_true, Bool.not_true, Bool.false_eq_true, if_false]
      rw [hfil, assignedSum_cons, hp1, hp2]
      ring
    · have hne : p.1 ≠ r₀ := by
        intro he
        have : r₀ ∈ rest.map Prod.fst := List.mem_map.mpr ⟨(r₀, w₀), h, rfl⟩
        exact hnd.1 (he ▸ this)
      rw [List.filter_cons]
      have hb : (!(p.1 == r₀)) = true := by simp [hne]
      simp only [hb, if_true]
      rw [assignedSum_cons, assignedSum_cons, ih hnd.2 h]
      ring

theorem assignedSum_updateA (rt : TimeMap) {m : Assignment} {ride tw : String} (aw : String)
    (hnd : (m.map Prod.fst).Nodup) (hmem : (ride, tw) ∈ m) (w : String) :
    assignedSum rt (updateA m ride aw) w =
      assignedSum rt m w + (if aw = w then alookupD rt ride 0 else 0)
        - (if tw = w then alookupD rt ride 0 else 0) := by
  induction m with
  | nil => simp at hmem
  | cons p rest ih =>
    simp only [List.map_cons, List.nodup_cons] at hnd
    rw [updateA_cons]
    rcases List.mem_cons.mp hmem with h | h
    · have hp1 : p.1 = ride := by rw [← h]
      have hp2 : p.2 = tw := by rw [← h]
      have hr : ride ∉ rest.map Prod.fst := by rw [← hp1]; exact hnd.1
      rw [if_pos hp1, updateA_not_mem aw hr, assignedSum_cons, assignedSum_cons, hp2]
      simp only [hp1]
      by_cases h1 : aw = w <;> by_cases h2 : tw = w <;> simp [h1, h2] <;> ring
    · have hne : p.1 ≠ ride := by
        intro he
        have : ride ∈ rest.map Prod.fst := List.mem_map.mpr ⟨(ride, tw), h, rfl⟩
        exact hnd.1 (he ▸ this)
      rw [if_neg hne, assignedSum_cons, assignedSum_cons, ih hnd.2 h]
      ring

theorem sumSq_nonneg (m : TimeMap) : 0 ≤ sumSq m := by
  refine List.sum_nonneg ?_
  intro x hx
  rcases List.mem_map.mp hx with ⟨p, _, he⟩
  exact he ▸ mul_self_nonneg p.2

theorem sumSq_cons (p : String × Int) (m : TimeMap) :
    sumSq (p :: m) = p.2 * p.2 + sumSq m := by
  simp [sumSq]

theorem sumSq_updateA {m : TimeMap} {k : String} (v : Int)
    (hnd : (m.map Prod.fst).Nodup) (hk : k ∈ m.map Prod.fst) :
    sumSq (updateA m k v) =
      sumSq m - (alookupD m k 0) * (alookupD m k 0) + v * v := by
  induction m with
  | nil => simp at hk
  | cons p rest ih =>
    simp only [List.map_cons, List.nodup_cons] at hnd
    rw [updateA_cons]
    by_cases hp : p.1 = k
    · have hrest : k ∉ rest.map Prod.fst := hp ▸ hnd.1
      rw [if_pos hp, updateA_not_mem v hrest, sumSq_cons, sumSq_cons]
      have : alookupD (p :: rest) k 0 = p.2 := by
        simp [alookupD, alookup_cons, hp]
      rw [this]
      ring
    · simp only [List.map_cons, List.mem_cons] at hk
      rcases hk with hk | hk
      · exact absurd hk.symm hp
      · rw [if_neg hp, sumSq_cons, sumSq_cons, ih hnd.2 hk]
        have : alookupD (p :: rest) k 0 = alookupD rest k 0 := by
          simp [alookupD, alookup_cons, hp]
        rw [this]
        ring


/-! Source `generate_day_assignment` and its inner functions (`logic.py`). -/

/-- Eligibility test in the dfs worker loop:
`ride in workers_can_check[worker] and rides_time[ride] <= partial_worker_times_remaining[worker]`. -/
def dfsElig (rt : TimeMap) (wcc : CapMap) (ptr : TimeMap) (ride w : String) : Bool :=
  capableB wcc ride w && decide (alookupD rt ride 0 ≤ alookupD ptr w 0)

/-- Body of the dfs worker loop: try worker `w`; if its recursive search
(provided as `g w`) found a complete assignment, return it, otherwise keep
the accumulated answer.  `foldr` over the shuffled worker list realises the
left-to-right `for worker in workers` loop with early return. -/
def dfsLoopBody (g : String → Assignment × TimeMap) (elig : String → Bool)
    (w : String) (acc : Assignment × TimeMap) : Assignment × TimeMap :=
  bif elig w then (bif (g w).1.isEmpty then acc else g w) else acc

/-- Source `dfs`: randomized backtracking search.  The empty assignment `[]`
doubles as the failure sentinel, exactly as `{}` does in the source.  `fuel`
bounds the recursion depth; the caller passes `rides_time.length + 1`, which
is more than the deepest reachable recursion (each level assigns one more
ride), so the fuel-exhausted branch is unreachable from
`generate_day_assignment`. -/
def dfs (rt : TimeMap) (wcc : CapMap) (σd : Assignment → List String → List String) :
    Nat → Assignment → TimeMap → Assignment × TimeMap
  | 0, _, ptr => ([], ptr)
  | fuel + 1, pa, ptr =>
    if pa.length = rt.length then (pa, ptr)
    else
      match rt.find? (fun p => (alookup pa p.1).isNone) with
      | none => ([], ptr)
      | some q =>
        (σd pa (wcc.map Prod.fst)).foldr
          (dfsLoopBody
            (fun w => dfs rt wcc σd fuel (pa ++ [(q.1, w)])
              (updateA ptr w (alookupD ptr w 0 - alookupD rt q.1 0)))
            (dfsElig rt wcc ptr q.1))
          ([], ptr)

/-- Source `should_transfer`: accept a transfer of a ride of duration
`ride_time` from a worker with `t` remaining to one with `a` remaining iff
`|a - t - 2*ride_time| < |a - t|` and `a > t`. -/
def should_transfer (accepting_worker_time_remaining transferring_worker_time_remaining
    ride_time : Int) : Bool :=
  decide ((accepting_worker_time_remaining - transferring_worker_time_remaining
      - 2 * ride_time).natAbs
    < (accepting_worker_time_remaining - transferring_worker_time_remaining).natAbs)
  && decide (transferring_worker_time_remaining < accepting_worker_time_remaining)

/-- Inner loop of `try_transfer_ride`: walk the (shuffled) rides currently
assigned to the transferring worker; for each, scan the capable accepting
workers in registry order and return the first accepted pair. -/
def findAccept (rt : TimeMap) (wcc : CapMap) (ctr : TimeMap) (twr : Int) (tw : String) :
    List String → Option (String × String)
  | [] => none
  | ride :: rest =>
    match ((wcc.map Prod.fst).filter
        (fun w => !(w == tw) && capableB wcc ride w)).find?
        (fun aw => should_transfer (alookupD ctr aw 0) twr (alookupD rt ride 0)) with
    | some aw => some (ride, aw)
    | none => findAccept rt wcc ctr twr tw rest

/-- Source `try_transfer_ride`: `σ` is the shuffle applied to the list of the
transferring worker's rides. -/
def try_transfer_ride (rt : TimeMap) (wcc : CapMap) (σ : List String → List String)
    (ca : Assignment) (ctr : TimeMap) (tw : String) : Option (String × String) :=
  findAccept rt wcc ctr (alookupD ctr tw 0) tw
    (σ ((ca.filter (fun p => p.2 == tw)).map Prod.fst))

/-- The in-place mutation `hillclimb` performs once a transfer is accepted:
reassign the ride, credit the transferring worker, debit the accepting one. -/
def applyTransfer (rt : TimeMap) (ca : Assignment) (ctr : TimeMap)
    (tw ride aw : String) : Assignment × TimeMap :=
  let d := alookupD rt ride 0
  let ctr1 := updateA ctr tw (alookupD ctr tw 0 + d)
  (updateA ca ride aw, updateA ctr1 aw (alookupD ctr1 aw 0 - d))

/-- Worker loop of `hillclimb`: first transferring worker with an accepted
transfer wins; `none` models the `return False` at the end. -/
def hillclimbGo (rt : TimeMap) (wcc : CapMap) (σr : String → List String → List String)
    (ca : Assignment) (ctr : TimeMap) : List String → Option (Assignment × TimeMap)
  | [] => none
  | tw :: rest =>
    match try_transfer_ride rt wcc (σr tw) ca ctr tw with
    | some res => some (applyTransfer rt ca ctr tw res.1 res.2)
    | none => hillclimbGo rt wcc σr ca ctr rest

/-- Source `hillclimb`: one pass; `some` is Python's `return True` together
with the state after the in-place mutation, `none` is `return False`. -/
def hillclimb (rt : TimeMap) (wcc : CapMap)
    (σw : Assignment × TimeMap → List String → List String)
    (σr : Assignment × TimeMap → String → List String → List String)
    (ca : Assignment) (ctr : TimeMap) : Option (Assignment × TimeMap) :=
  hillclimbGo rt wcc (σr (ca, ctr)) ca ctr (σw (ca, ctr) (wcc.map Prod.fst))

/-- The `while hillclimb(...)` loop, run for at most `n` accepted moves. -/
def hillclimbRounds (rt : TimeMap) (wcc : CapMap)
    (σw : Assignment × TimeMap → List String → List String)
    (σr : Assignment × TimeMap → String → List String → List String) :
    Nat → Assignment × TimeMap → Assignment × TimeMap
  | 0, s => s
  | n + 1, s =>
    match hillclimb rt wcc σw σr s.1 s.2 with
    | none => s
    | some s' => hillclimbRounds rt wcc σw σr n s'

/-- Source `generate_day_assignment`: run `dfs` from the empty assignment with
every worker's remaining time set to `worker_time`; `{} == complete_assignment`
means failure and yields `None`; otherwise hillclimb to a local optimum and
return the assignment.  The loop fuel `sumSq + 1` exceeds the number of
accepted moves possible (each accepted move strictly decreases the
non-negative `sumSq` of remaining times), so the returned state is the loop's
fixed point, as in the unbounded Python `while`. -/
def generate_day_assignment (worker_time : Int) (rides_time : TimeMap)
    (workers_can_check : CapMap)
    (σd : Assignment → List String → List String)
    (σw : Assignment × TimeMap → List String → List String)
    (σr : Assignment × TimeMap → String → List String → List String) :
    Option Assignment :=
  let init := workers_can_check.map (fun p => (p.1, worker_time))
  let res := dfs rides_time workers_can_check σd (rides_time.length + 1) [] init
  bif res.1.isEmpty then none
  else some (hillclimbRounds rides_time workers_can_check σw σr
    ((sumSq res.2).toNat + 1) res).1

/-! Source `generate_multiple_day_assignments` (`logic.py`). -/

/-- Per-day slice of the week input: `{'time': ..., 'workers_ua': ..., 'rides_ua': ...}`. -/
structure DayInfo where
  time : Int
  workers_ua : List String
  rides_ua : List String
deriving DecidableEq, Repr

/-- Loop of `generate_multiple_day_assignments`, threading the accumulator
triple (plan, success, status).  The overall result is `none` when the Python
code raises `TypeError` (`multiple_day_assignments[day] = ...` with
`multiple_day_assignments == None`), and `some (plan, status)` when the
function returns.  The solver is a parameter so that claims about when the
day search is invoked can be stated; `generate_multiple_day_assignments`
below is the composition with `generate_day_assignment`. -/
def genMultipleGo (solver : Int → TimeMap → CapMap → Option Assignment)
    (art : TimeMap) (awcc : CapMap) :
    List (String × DayInfo) → Option (List (String × Assignment)) → Bool → String →
    Option (Option (List (String × Assignment)) × String)
  | [], plan, _, status => some (plan, status.dropRight 2)
  | (day, info) :: rest, plan, succ, status =>
    if info.time = 0 then
      match plan with
      | none => none
      | some p => genMultipleGo solver art awcc rest (some (dictInsert p day [])) succ status
    else
      match solver info.time (without_keys art info.rides_ua)
          (without_keys awcc info.workers_ua) with
      | none =>
        bif succ then
          genMultipleGo solver art awcc rest none false
            ("Could not find a worker schedule for " ++ day ++ ", ")
        else
          genMultipleGo solver art awcc rest plan succ (status ++ day ++ ", ")
      | some a =>
        bif succ then
          match plan with
          | none => none
          | some p =>
            genMultipleGo solver art awcc rest (some (dictInsert p day a)) succ
              (status ++ day ++ ", ")
        else
          genMultipleGo solver art awcc rest plan succ status

/-- Source `generate_multiple_day_assignments`, abstracted over the per-day
solver. -/
def generate_multiple_day_assignments (solver : Int → TimeMap → CapMap → Option Assignment)
    (days_info : List (String × DayInfo)) (all_rides_time : TimeMap)
    (all_workers_can_check : CapMap) :
    Option (Option (List (String × Assignment)) × String) :=
  genMultipleGo solver all_rides_time all_workers_can_check days_info (some []) true
    "Generated worker schedule for "


/-! Soundness of `dfs`: the search invariant and its preservation. -/

/-- Invariant carried by each `dfs` call (also holds, with a completeness
clause, for the final state the hillclimb phase works on):
the partial assignment has distinct ride keys, every assigned pair is a real
ride assigned to a capable worker, the remaining-time map ranges over exactly
the registered workers, each worker's remaining time is the budget minus the
load assigned so far, and no remaining time is negative. -/
def DayInv (wt : Int) (rt : TimeMap) (wcc : CapMap) (pa : Assignment) (ptr : TimeMap) :
    Prop :=
  (pa.map Prod.fst).Nodup ∧
  (∀ p ∈ pa, p.1 ∈ rt.map Prod.fst ∧ capableB wcc p.1 p.2 = true) ∧
  ptr.map Prod.fst = wcc.map Prod.fst ∧
  (∀ w ∈ wcc.map Prod.fst, alookupD ptr w 0 = wt - assignedSum rt pa w) ∧
  (∀ p ∈ ptr, 0 ≤ p.2)

theorem dfs_zero (rt : TimeMap) (wcc : CapMap) (σd : Assignment → List String → List String)
    (pa : Assignment) (ptr : TimeMap) : dfs rt wcc σd 0 pa ptr = ([], ptr) := rfl

theorem dfs_succ (rt : TimeMap) (wcc : CapMap) (σd : Assignment → List String → List String)
    (fuel : Nat) (pa : Assignment) (ptr : TimeMap) :
    dfs rt wcc σd (fuel + 1) pa ptr =
      if pa.length = rt.length then (pa, ptr)
      else
        match rt.find? (fun p => (alookup pa p.1).isNone) with
        | none => ([], ptr)
        | some q =>
          (σd pa (wcc.map Prod.fst)).foldr
            (dfsLoopBody
              (fun w => dfs rt wcc σd fuel (pa ++ [(q.1, w)])
                (updateA ptr w (alookupD ptr w 0 - alookupD rt q.1 0)))
              (dfsElig rt wcc ptr q.1))
            ([], ptr) := by
  rw [dfs]

theorem dfs_succ_base (rt : TimeMap) (wcc : CapMap)
    (σd : Assignment → List String → List String) (fuel : Nat) {pa : Assignment}
    (ptr : TimeMap) (hlen : pa.length = rt.length) :
    dfs rt wcc σd (fuel + 1) pa ptr = (pa, ptr) := by
  rw [dfs_succ, if_pos hlen]

theorem dfs_succ_stuck (rt : TimeMap) (wcc : CapMap)
    (σd : Assignment → List String → List String) (fuel : Nat) {pa : Assignment}
    (ptr : TimeMap) (hlen : ¬pa.length = rt.length)
    (hfind : rt.find? (fun p => (alookup pa p.1).isNone) = none) :
    dfs rt wcc σd (fuel + 1) pa ptr = ([], ptr) := by
  rw [dfs_succ, if_neg hlen, hfind]

theorem dfs_succ_found (rt : TimeMap) (wcc : CapMap)
    (σd : Assignment → List String → List String) (fuel : Nat) {pa : Assignment}
    (ptr : TimeMap) {q : String × Int} (hlen : ¬pa.length = rt.length)
    (hfind : rt.find? (fun p => (alookup pa p.1).isNone) = some q) :
    dfs rt wcc σd (fuel + 1) pa ptr =
      (σd pa (wcc.map Prod.fst)).foldr
        (dfsLoopBody
          (fun w => dfs rt wcc σd fuel (pa ++ [(q.1, w)])
            (updateA ptr w (alookupD ptr w 0 - alookupD rt q.1 0)))
          (dfsElig rt wcc ptr q.1))
        ([], ptr) := by
  rw [dfs_succ, if_neg hlen, hfind]

theorem dfsLoopBody_skip (g : String → Assignment × TimeMap) {elig : String → Bool}
    {w : String} (acc : Assignment × TimeMap) (he : elig w = false) :
    dfsLoopBody g elig w acc = acc := by
  unfold dfsLoopBody
  rw [he]
  rfl

theorem dfsLoopBody_fail (g : String → Assignment × TimeMap) {elig : String → Bool}
    {w : String} (acc : Assignment × TimeMap) (he : elig w = true)
    (hge : (g w).1.isEmpty = true) : dfsLoopBody g elig w acc = acc := by
  unfold dfsLoopBody
  rw [he, hge]
  rfl

theorem dfsLoopBody_hit (g : String → Assignment × TimeMap) {elig : String → Bool}
    {w : String} (acc : Assignment × TimeMap) (he : elig w = true)
    (hge : (g w).1.isEmpty = false) : dfsLoopBody g elig w acc = g w := by
  unfold dfsLoopBody
  rw [he, hge]
  rfl

theorem dfsLoop_sound (g : String → Assignment × TimeMap) (elig : String → Bool)
    (ptr : TimeMap) :
    ∀ ws : List String, (ws.foldr (dfsLoopBody g elig) ([], ptr)).1 ≠ [] →
      ∃ w ∈ ws, elig w = true ∧ (g w).1 ≠ [] ∧
        ws.foldr (dfsLoopBody g elig) ([], ptr) = g w := by
  intro ws
  induction ws with
  | nil => intro h; simp at h
  | cons w rest ih =>
    intro h
    rw [List.foldr_cons] at h ⊢
    cases he : elig w
    · rw [dfsLoopBody_skip g _ he] at h ⊢
      rcases ih h with ⟨w', hw', h1, h2, h3⟩
      exact ⟨w', List.mem_cons_of_mem _ hw', h1, h2, h3⟩
    · cases hge : (g w).1.isEmpty
      · rw [dfsLoopBody_hit g _ he hge] at h ⊢
        exact ⟨w, List.mem_cons_self _ _, he, by simpa using hge, rfl⟩
      · rw [dfsLoopBody_fail g _ he hge] at h ⊢
        rcases ih h with ⟨w', hw', h1, h2, h3⟩
        exact ⟨w', List.mem_cons_of_mem _ hw', h1, h2, h3⟩

theorem dfsLoop_complete (g : String → Assignment × TimeMap) (elig : String → Bool)
    (ptr : TimeMap) :
    ∀ ws : List String, ∀ w ∈ ws, elig w = true → (g w).1 ≠ [] →
      (ws.foldr (dfsLoopBody g elig) ([], ptr)).1 ≠ [] := by
  intro ws
  induction ws with
  | nil => intro w hw; simp at hw
  | cons w' rest ih =>
    intro w hw he hg
    rw [List.foldr_cons]
    cases he' : elig w'
    · rw [dfsLoopBody_skip g _ he']
      rcases List.mem_cons.mp hw with h | h
      · rw [h] at he
        rw [he] at he'
        simp at he'
      · exact ih w h he hg
    · cases hge : (g w').1.isEmpty
      · rw [dfsLoopBody_hit g _ he' hge]
        simpa using hge
      · rw [dfsLoopBody_fail g _ he' hge]
        rcases List.mem_cons.mp hw with h | h
        · rw [← h] at hge
          exact absurd (List.isEmpty_iff.mp hge) hg
        · exact ih w h he hg

theorem dfsElig_spec {rt : TimeMap} {wcc : CapMap} {ptr : TimeMap} {ride w : String}
    (h : dfsElig rt wcc ptr ride w = true) :
    capableB wcc ride w = true ∧ alookupD rt ride 0 ≤ alookupD ptr w 0 := by
  unfold dfsElig at h
  rw [Bool.and_eq_true] at h
  exact ⟨h.1, of_decide_eq_true h.2⟩

theorem DayInv_extend {wt : Int} {rt : TimeMap} {wcc : CapMap} {pa : Assignment}
    {ptr : TimeMap} {q : String × Int} {w : String}
    (hinv : DayInv wt rt wcc pa ptr)
    (hq : q ∈ rt) (hq2 : alookup pa q.1 = none)
    (hw : w ∈ wcc.map Prod.fst)
    (hcap : capableB wcc q.1 w = true)
    (hbud : alookupD rt q.1 0 ≤ alookupD ptr w 0) :
    DayInv wt rt wcc (pa ++ [(q.1, w)])
      (updateA ptr w (alookupD ptr w 0 - alookupD rt q.1 0)) := by
  obtain ⟨hnd, hpairs, hkeys, htrack, hnn⟩ := hinv
  have hq1 : q.1 ∉ pa.map Prod.fst := (alookup_eq_none pa q.1).mp hq2
  have hwptr : w ∈ ptr.map Prod.fst := hkeys ▸ hw
  refine ⟨?_, ?_, ?_, ?_, ?_⟩
  · rw [List.map_append]
    rw [List.nodup_append]
    refine ⟨hnd, by simp, ?_⟩
    intro x hx
    simp only [List.map_cons, List.map_nil, List.mem_singleton]
    intro he
    exact hq1 (he ▸ hx)
  · intro p hp
    rcases List.mem_append.mp hp with h | h
    · exact hpairs p h
    · have : p = (q.1, w) := by simpa using h
      rw [this]
      exact ⟨List.mem_map.mpr ⟨q, hq, rfl⟩, hcap⟩
  · rw [updateA_keys]
    exact hkeys
  · intro w' hw'
    rw [assignedSum_append, assignedSum_singleton]
    by_cases hww : w' = w
    · rw [hww, alookupD_updateA_self _ _ hwptr, if_pos rfl, htrack w hw]
      ring
    · have hne : w' ≠ w := hww
      rw [alookupD_updateA_ne _ _ _ hne, htrack w' hw']
      rw [if_neg (fun he => hne he.symm)]
      ring
  · intro p hp
    rcases mem_updateA hp with h | h
    · rw [h]
      simp only
      omega
    · exact hnn p h

theorem dfs_sound {wt : Int} {rt : TimeMap} {wcc : CapMap}
    {σd : Assignment → List String → List String}
    (Hσd : ∀ pa l, (σd pa l).Perm l) :
    ∀ fuel pa ptr, DayInv wt rt wcc pa ptr →
      (dfs rt wcc σd fuel pa ptr).1 ≠ [] →
      DayInv wt rt wcc (dfs rt wcc σd fuel pa ptr).1 (dfs rt wcc σd fuel pa ptr).2 ∧
        (dfs rt wcc σd fuel pa ptr).1.length = rt.length := by
  intro fuel
  induction fuel with
  | zero =>
    intro pa ptr _ h
    rw [dfs_zero] at h
    simp at h
  | succ fuel ih =>
    intro pa ptr hinv hne
    by_cases hlen : pa.length = rt.length
    · rw [dfs_succ_base rt wcc σd fuel ptr hlen] at hne ⊢
      exact ⟨hinv, hlen⟩
    · cases hfind : rt.find? (fun p => (alookup pa p.1).isNone) with
      | none =>
        rw [dfs_succ_stuck rt wcc σd fuel ptr hlen hfind] at hne
        simp at hne
      | some q =>
        rw [dfs_succ_found rt wcc σd fuel ptr hlen hfind] at hne ⊢
        obtain ⟨w, hwmem, helig, hgne, heq⟩ := dfsLoop_sound _ _ _ _ hne
        rw [heq]
        have hq : q ∈ rt := List.mem_of_find?_eq_some hfind
        have hq2 : alookup pa q.1 = none := by
          have := List.find?_some hfind
          simpa [Option.isNone_iff_eq_none] using this
        have hw : w ∈ wcc.map Prod.fst := ((Hσd pa _).mem_iff).mp hwmem
        obtain ⟨hcap, hbud⟩ := dfsElig_spec helig
        exact ih _ _ (DayInv_extend hinv hq hq2 hw hcap hbud) hgne


/-! Completeness of `dfs`. -/

theorem capableB_mem_keys {wcc : CapMap} {r w : String} (h : capableB wcc r w = true) :
    w ∈ wcc.map Prod.fst := by
  unfold capableB at h
  cases hv : alookup wcc w with
  | none => rw [alookupD, hv] at h; simp at h
  | some v => exact mem_keys_of_alookup hv

theorem init_alookup (wcc : CapMap) (wt : Int) {w : String} (h : w ∈ wcc.map Prod.fst) :
    alookup (wcc.map (fun p => (p.1, wt))) w = some wt := by
  induction wcc with
  | nil => simp at h
  | cons p rest ih =>
    rw [List.map_cons, alookup_cons]
    by_cases hp : p.1 = w
    · rw [if_pos hp]
    · rw [if_neg hp]
      simp only [List.map_cons, List.mem_cons] at h
      rcases h with h | h
      · exact absurd h.symm hp
      · exact ih h

theorem init_keys (wcc : CapMap) (wt : Int) :
    ((wcc.map (fun p => (p.1, wt))).map Prod.fst) = wcc.map Prod.fst := by
  rw [List.map_map]
  rfl

theorem DayInv_init (wt : Int) (rt : TimeMap) (wcc : CapMap) (Hwt : 0 ≤ wt) :
    DayInv wt rt wcc [] (wcc.map (fun p => (p.1, wt))) := by
  refine ⟨by simp, by simp, init_keys wcc wt, ?_, ?_⟩
  · intro w hw
    rw [alookupD, init_alookup wcc wt hw, assignedSum_nil]
    simp
  · intro p hp
    rcases List.mem_map.mp hp with ⟨q, _, he⟩
    rw [← he]
    exact Hwt

/-- A completion of the search node `(pa, ptr)`: an assignment of every ride
not yet assigned by `pa` to capable workers that fits in the remaining times
`ptr`.  `dfs` succeeds from any node that has one. -/
def Completion (rt : TimeMap) (wcc : CapMap) (pa : Assignment) (ptr : TimeMap)
    (m : Assignment) : Prop :=
  (m.map Prod.fst).Nodup ∧
  (∀ r ∈ rt.map Prod.fst, r ∉ pa.map Prod.fst → r ∈ m.map Prod.fst) ∧
  (∀ p ∈ m, p.1 ∈ rt.map Prod.fst ∧ p.1 ∉ pa.map Prod.fst ∧ capableB wcc p.1 p.2 = true) ∧
  (∀ w ∈ wcc.map Prod.fst, assignedSum rt m w ≤ alookupD ptr w 0)

theorem dfs_complete {wt : Int} {rt : TimeMap} {wcc : CapMap}
    {σd : Assignment → List String → List String}
    (HrtN : (rt.map Prod.fst).Nodup) (Hd : ∀ p ∈ rt, 0 ≤ p.2)
    (Hσd : ∀ pa l, (σd pa l).Perm l) (Hrtne : rt ≠ []) :
    ∀ fuel pa ptr m, DayInv wt rt wcc pa ptr → Completion rt wcc pa ptr m →
      rt.length - pa.length < fuel →
      (dfs rt wcc σd fuel pa ptr).1 ≠ [] := by
  intro fuel
  induction fuel with
  | zero =>
    intro pa ptr m _ _ hfuel
    exact absurd hfuel (by omega)
  | succ fuel ih =>
    intro pa ptr m hinv hcomp hfuel
    obtain ⟨hnd, hpairs, hkeys, htrack, hnn⟩ := hinv
    by_cases hlen : pa.length = rt.length
    · rw [dfs_succ_base rt wcc σd fuel ptr hlen]
      intro hpa
      have hpa' : pa = [] := hpa
      rw [hpa'] at hlen
      exact Hrtne (List.eq_nil_of_length_eq_zero hlen.symm)
    · have hsub : pa.map Prod.fst ⊆ rt.map Prod.fst := by
        intro x hx
        rcases List.mem_map.mp hx with ⟨p, hp, he⟩
        exact he ▸ (hpairs p hp).1
      have hlt : pa.length < rt.length := by
        have := (List.Nodup.subperm hnd hsub).length_le
        simp only [List.length_map] at this
        omega
      cases hfind : rt.find? (fun p => (alookup pa p.1).isNone) with
      | none =>
        exfalso
        have hall := List.find?_eq_none.mp hfind
        have hsub2 : rt.map Prod.fst ⊆ pa.map Prod.fst := by
          intro x hx
          rcases List.mem_map.mp hx with ⟨p, hp, he⟩
          have := hall p hp
          rw [← he]
          cases hlp : alookup pa p.1 with
          | none => exact absurd (by rw [hlp]; rfl) this
          | some v => exact mem_keys_of_alookup hlp
        have := (List.Nodup.subperm HrtN hsub2).length_le
        simp only [List.length_map] at this
        omega
      | some q =>
        rw [dfs_succ_found rt wcc σd fuel ptr hlen hfind]
        have hq : q ∈ rt := List.mem_of_find?_eq_some hfind
        have hq2 : alookup pa q.1 = none := by
          have := List.find?_some hfind
          simpa [Option.isNone_iff_eq_none] using this
        have hq2' : q.1 ∉ pa.map Prod.fst := (alookup_eq_none pa q.1).mp hq2
        obtain ⟨hmnd, hmcov, hmpairs, hmsum⟩ := hcomp
        have hq1m : q.1 ∈ m.map Prod.fst :=
          hmcov q.1 (List.mem_map.mpr ⟨q, hq, rfl⟩) hq2'
        rcases List.mem_map.mp hq1m with ⟨p0, hp0, hp0e⟩
        have hp0pair : (q.1, p0.2) ∈ m := by
          have he : p0 = (q.1, p0.2) := Prod.ext hp0e rfl
          rw [← he]
          exact hp0
        have hcap : capableB wcc q.1 p0.2 = true := by
          rw [← hp0e]
          exact (hmpairs p0 hp0).2.2
        have hwmem : p0.2 ∈ wcc.map Prod.fst := capableB_mem_keys hcap
        have hsplit := assignedSum_removeKey rt hmnd hp0pair p0.2
        rw [if_pos rfl] at hsplit
        have hrest_nonneg :
            0 ≤ assignedSum rt (m.filter (fun p => !(p.1 == q.1))) p0.2 :=
          assignedSum_nonneg rt _ p0.2 Hd
        have hbud : alookupD rt q.1 0 ≤ alookupD ptr p0.2 0 := by
          have := hmsum p0.2 hwmem
          omega
        have helig : dfsElig rt wcc ptr q.1 p0.2 = true := by
          unfold dfsElig
          rw [Bool.and_eq_true]
          exact ⟨hcap, decide_eq_true hbud⟩
        apply dfsLoop_complete _ _ _ _ p0.2
          (((Hσd pa (wcc.map Prod.fst)).mem_iff).mpr hwmem) helig
        -- recursive success from the extended node
        apply ih _ _ (m.filter (fun p => !(p.1 == q.1)))
        · exact DayInv_extend ⟨hnd, hpairs, hkeys, htrack, hnn⟩ hq hq2 hwmem hcap hbud
        · refine ⟨?_, ?_, ?_, ?_⟩
          · exact List.Nodup.sublist (List.Sublist.map Prod.fst (List.filter_sublist m)) hmnd
          · intro r hr hrpa
            rw [List.map_append] at hrpa
            simp only [List.mem_append, List.map_cons, List.map_nil,
              List.mem_singleton, not_or] at hrpa
            have hrm : r ∈ m.map Prod.fst := hmcov r hr hrpa.1
            rcases List.mem_map.mp hrm with ⟨p1, hp1, hp1e⟩
            refine List.mem_map.mpr ⟨p1, ?_, hp1e⟩
            rw [List.mem_filter]
            refine ⟨hp1, ?_⟩
            rw [hp1e]
            simp [hrpa.2]
          · intro p hp
            have hpm : p ∈ m := List.mem_of_mem_filter hp
            have hpf := List.of_mem_filter hp
            have hpne : p.1 ≠ q.1 := by
              simpa [beq_eq_false_iff_ne] using hpf
            obtain ⟨h1, h2, h3⟩ := hmpairs p hpm
            refine ⟨h1, ?_, h3⟩
            rw [List.map_append]
            simp only [List.mem_append, List.map_cons, List.map_nil,
              List.mem_singleton, not_or]
            exact ⟨h2, hpne⟩
          · intro w' hw'
            by_cases hww : w' = p0.2
            · rw [hww]
              have hptrw : p0.2 ∈ ptr.map Prod.fst := hkeys ▸ hwmem
              rw [alookupD_updateA_self _ _ hptrw]
              have hs2 := hmsum p0.2 hwmem
              omega
            · have hsplit' := assignedSum_removeKey rt hmnd hp0pair w'
              rw [if_neg (fun he => hww he.symm)] at hsplit'
              rw [alookupD_updateA_ne _ _ _ hww]
              have := hmsum w' hw'
              omega
        · have : (pa ++ [(q.1, p0.2)]).length = pa.length + 1 := by simp
          rw [this]
          omega


/-! Characterization of `generate_day_assignment`'s feasibility answer. -/

/-- Initial remaining-time map: `{worker: worker_time for worker in workers_can_check}`. -/
abbrev dayInit (wcc : CapMap) (wt : Int) : TimeMap :=
  wcc.map (fun p => (p.1, wt))

/-- The dfs result `generate_day_assignment` computes before hillclimbing. -/
def dayDfs (wt : Int) (rt : TimeMap) (wcc : CapMap)
    (σd : Assignment → List String → List String) : Assignment × TimeMap :=
  dfs rt wcc σd (rt.length + 1) [] (dayInit wcc wt)

theorem generate_day_assignment_eq (wt : Int) (rt : TimeMap) (wcc : CapMap)
    (σd : Assignment → List String → List String)
    (σw : Assignment × TimeMap → List String → List String)
    (σr : Assignment × TimeMap → String → List String → List String) :
    generate_day_assignment wt rt wcc σd σw σr =
      (bif (dayDfs wt rt wcc σd).1.isEmpty then none
       else some (hillclimbRounds rt wcc σw σr
         ((sumSq (dayDfs wt rt wcc σd).2).toNat + 1) (dayDfs wt rt wcc σd)).1) := rfl

theorem gda_none_iff_dfs (wt : Int) (rt : TimeMap) (wcc : CapMap)
    (σd : Assignment → List String → List String)
    (σw : Assignment × TimeMap → List String → List String)
    (σr : Assignment × TimeMap → String → List String → List String) :
    generate_day_assignment wt rt wcc σd σw σr = none ↔ (dayDfs wt rt wcc σd).1 = [] := by
  rw [generate_day_assignment_eq]
  cases h : (dayDfs wt rt wcc σd).1.isEmpty
  · simp only [cond_false]
    constructor
    · intro hc
      exact absurd hc (by simp)
    · intro hc
      rw [hc] at h
      simp at h
  · simp only [cond_true]
    constructor
    · intro _
      exact List.isEmpty_iff.mp h
    · intro _
      trivial

theorem gda_some_elim {wt : Int} {rt : TimeMap} {wcc : CapMap}
    {σd : Assignment → List String → List String}
    {σw : Assignment × TimeMap → List String → List String}
    {σr : Assignment × TimeMap → String → List String → List String} {m : Assignment}
    (h : generate_day_assignment wt rt wcc σd σw σr = some m) :
    (dayDfs wt rt wcc σd).1 ≠ [] ∧
      m = (hillclimbRounds rt wcc σw σr
        ((sumSq (dayDfs wt rt wcc σd).2).toNat + 1) (dayDfs wt rt wcc σd)).1 := by
  rw [generate_day_assignment_eq] at h
  cases hh : (dayDfs wt rt wcc σd).1.isEmpty
  · rw [hh] at h
    simp only [cond_false] at h
    exact ⟨by simpa using hh, (Option.some_inj.mp h).symm⟩
  · rw [hh] at h
    simp at h

/-- A complete valid assignment for one day, as the spec describes it:
distinct ride keys covering exactly the day's rides, each ride given to a
capable worker, and every worker's load within the uniform budget. -/
def ValidAssignment (wt : Int) (rt : TimeMap) (wcc : CapMap) (m : Assignment) : Prop :=
  (m.map Prod.fst).Nodup ∧
  (∀ r ∈ rt.map Prod.fst, r ∈ m.map Prod.fst) ∧
  (∀ p ∈ m, p.1 ∈ rt.map Prod.fst ∧ capableB wcc p.1 p.2 = true) ∧
  (∀ w ∈ wcc.map Prod.fst, assignedSum rt m w ≤ wt)

instance (wt : Int) (rt : TimeMap) (wcc : CapMap) (m : Assignment) :
    Decidable (ValidAssignment wt rt wcc m) := by
  unfold ValidAssignment
  infer_instance

theorem dayInv_complete_valid {wt : Int} {rt : TimeMap} {wcc : CapMap} {ca : Assignment}
    {ctr : TimeMap} (HrtN : (rt.map Prod.fst).Nodup)
    (hinv : DayInv wt rt wcc ca ctr) (hlen : ca.length = rt.length) :
    ValidAssignment wt rt wcc ca := by
  obtain ⟨hnd, hpairs, hkeys, htrack, hnn⟩ := hinv
  have hsub : ca.map Prod.fst ⊆ rt.map Prod.fst := by
    intro x hx
    rcases List.mem_map.mp hx with ⟨p, hp, he⟩
    exact he ▸ (hpairs p hp).1
  refine ⟨hnd, ?_, hpairs, ?_⟩
  · have hperm : (ca.map Prod.fst).Perm (rt.map Prod.fst) :=
      List.Subperm.perm_of_length_le (List.Nodup.subperm hnd hsub)
        (by simp [hlen])
    intro r hr
    exact hperm.mem_iff.mpr hr
  · intro w hw
    have ht := htrack w hw
    have hwc : w ∈ ctr.map Prod.fst := hkeys ▸ hw
    obtain ⟨v, hv⟩ := alookup_isSome_of_mem_keys hwc
    have hv0 : 0 ≤ v := hnn (w, v) (alookup_mem hv)
    rw [alookupD, hv, Option.getD_some] at ht
    omega

theorem valid_completion {wt : Int} {rt : TimeMap} {wcc : CapMap} {m : Assignment}
    (h : ValidAssignment wt rt wcc m) : Completion rt wcc [] (dayInit wcc wt) m := by
  obtain ⟨h1, h2, h3, h4⟩ := h
  refine ⟨h1, fun r hr _ => h2 r hr, fun p hp => ⟨(h3 p hp).1, by simp, (h3 p hp).2⟩, ?_⟩
  intro w hw
  rw [alookupD, init_alookup wcc wt hw, Option.getD_some]
  exact h4 w hw

/-- Feasibility answer of `generate_day_assignment`, fully characterized:
`None` exactly when the day has no rides at all (the sentinel collision of
claim C10) or no complete valid assignment exists. -/
theorem gda_none_char {wt : Int} {rt : TimeMap} {wcc : CapMap}
    {σd : Assignment → List String → List String}
    {σw : Assignment × TimeMap → List String → List String}
    {σr : Assignment × TimeMap → String → List String → List String}
    (HrtN : (rt.map Prod.fst).Nodup) (Hwt : 0 ≤ wt) (Hd : ∀ p ∈ rt, 0 ≤ p.2)
    (Hσd : ∀ pa l, (σd pa l).Perm l) :
    generate_day_assignment wt rt wcc σd σw σr = none ↔
      (rt = [] ∨ ¬∃ m, ValidAssignment wt rt wcc m) := by
  rw [gda_none_iff_dfs]
  constructor
  · intro hdfs
    by_cases hrt : rt = []
    · exact Or.inl hrt
    · refine Or.inr ?_
      rintro ⟨m, hm⟩
      exact dfs_complete HrtN Hd Hσd hrt (rt.length + 1) [] (dayInit wcc wt) m
        (DayInv_init wt rt wcc Hwt) (valid_completion hm) (by simp) hdfs
  · rintro (hrt | hno)
    · rw [hrt]
      rfl
    · by_contra hne
      have hs := dfs_sound Hσd (rt.length + 1) [] (dayInit wcc wt)
        (DayInv_init wt rt wcc Hwt) hne
      exact hno ⟨_, dayInv_complete_valid HrtN hs.1 hs.2⟩


/-! Anatomy of an accepted hillclimb move. -/

theorem should_transfer_spec {a t d : Int} (h : should_transfer a t d = true) :
    t < a ∧ 0 < d ∧ d < a - t ∧ (a - t - 2 * d).natAbs < (a - t).natAbs := by
  unfold should_transfer at h
  rw [Bool.and_eq_true, decide_eq_true_eq, decide_eq_true_eq] at h
  obtain ⟨habs, hlt⟩ := h
  refine ⟨hlt, ?_, ?_, habs⟩ <;> omega

theorem findAccept_nil (rt : TimeMap) (wcc : CapMap) (ctr : TimeMap) (twr : Int)
    (tw : String) : findAccept rt wcc ctr twr tw [] = none := rfl

theorem findAccept_cons (rt : TimeMap) (wcc : CapMap) (ctr : TimeMap) (twr : Int)
    (tw ride : String) (rest : List String) :
    findAccept rt wcc ctr twr tw (ride :: rest) =
      match ((wcc.map Prod.fst).filter
          (fun w => !(w == tw) && capableB wcc ride w)).find?
          (fun aw => should_transfer (alookupD ctr aw 0) twr (alookupD rt ride 0)) with
      | some aw => some (ride, aw)
      | none => findAccept rt wcc ctr twr tw rest := rfl

theorem findAccept_spec {rt : TimeMap} {wcc : CapMap} {ctr : TimeMap} {twr : Int}
    {tw : String} {res : String × String} :
    ∀ rides : List String, findAccept rt wcc ctr twr tw rides = some res →
      res.1 ∈ rides ∧ res.2 ≠ tw ∧ capableB wcc res.1 res.2 = true ∧
        res.2 ∈ wcc.map Prod.fst ∧
        should_transfer (alookupD ctr res.2 0) twr (alookupD rt res.1 0) = true := by
  intro rides
  induction rides with
  | nil =>
    intro h
    rw [findAccept_nil] at h
    simp at h
  | cons ride rest ih =>
    intro h
    cases hf : ((wcc.map Prod.fst).filter
        (fun w => !(w == tw) && capableB wcc ride w)).find?
        (fun aw => should_transfer (alookupD ctr aw 0) twr (alookupD rt ride 0)) with
    | some aw =>
      have hfa : findAccept rt wcc ctr twr tw (ride :: rest) = some (ride, aw) := by
        rw [findAccept_cons, hf]
      have he : res = (ride, aw) := Option.some_inj.mp (h.symm.trans hfa)
      have hmem := List.mem_of_find?_eq_some hf
      rw [List.mem_filter] at hmem
      obtain ⟨hawkeys, hpred⟩ := hmem
      rw [Bool.and_eq_true] at hpred
      have hne : aw ≠ tw := by simpa using hpred.1
      have hst := List.find?_some hf
      rw [he]
      exact ⟨List.mem_cons_self _ _, hne, hpred.2, hawkeys, hst⟩
    | none =>
      have hfa : findAccept rt wcc ctr twr tw (ride :: rest) =
          findAccept rt wcc ctr twr tw rest := by
        rw [findAccept_cons, hf]
      rw [hfa] at h
      obtain ⟨h1, h2, h3, h4, h5⟩ := ih h
      exact ⟨List.mem_cons_of_mem _ h1, h2, h3, h4, h5⟩

theorem try_transfer_spec {rt : TimeMap} {wcc : CapMap}
    {σ : List String → List String} {ca : Assignment} {ctr : TimeMap} {tw : String}
    {res : String × String} (Hσ : ∀ l, (σ l).Perm l)
    (h : try_transfer_ride rt wcc σ ca ctr tw = some res) :
    (res.1, tw) ∈ ca ∧ res.2 ≠ tw ∧ capableB wcc res.1 res.2 = true ∧
      res.2 ∈ wcc.map Prod.fst ∧
      should_transfer (alookupD ctr res.2 0) (alookupD ctr tw 0)
        (alookupD rt res.1 0) = true := by
  unfold try_transfer_ride at h
  obtain ⟨h1, h2, h3, h4, h5⟩ := findAccept_spec _ h
  refine ⟨?_, h2, h3, h4, h5⟩
  have hmem : res.1 ∈ (ca.filter (fun p => p.2 == tw)).map Prod.fst :=
    ((Hσ _).mem_iff).mp h1
  rcases List.mem_map.mp hmem with ⟨p, hp, he⟩
  have hpm : p ∈ ca := List.mem_of_mem_filter hp
  have hpt : p.2 = tw := by simpa using List.of_mem_filter hp
  have : p = (res.1, tw) := Prod.ext he hpt
  rw [← this]
  exact hpm

theorem hillclimbGo_nil (rt : TimeMap) (wcc : CapMap)
    (σr' : String → List String → List String) (ca : Assignment) (ctr : TimeMap) :
    hillclimbGo rt wcc σr' ca ctr [] = none := rfl

theorem hillclimbGo_cons (rt : TimeMap) (wcc : CapMap)
    (σr' : String → List String → List String) (ca : Assignment) (ctr : TimeMap)
    (tw : String) (rest : List String) :
    hillclimbGo rt wcc σr' ca ctr (tw :: rest) =
      match try_transfer_ride rt wcc (σr' tw) ca ctr tw with
      | some res => some (applyTransfer rt ca ctr tw res.1 res.2)
      | none => hillclimbGo rt wcc σr' ca ctr rest := rfl

theorem hillclimbGo_spec {rt : TimeMap} {wcc : CapMap}
    {σr' : String → List String → List String} {ca : Assignment} {ctr : TimeMap}
    {out : Assignment × TimeMap} :
    ∀ tws : List String, hillclimbGo rt wcc σr' ca ctr tws = some out →
      ∃ tw ∈ tws, ∃ res : String × String,
        try_transfer_ride rt wcc (σr' tw) ca ctr tw = some res ∧
        out = applyTransfer rt ca ctr tw res.1 res.2 := by
  intro tws
  induction tws with
  | nil =>
    intro h
    rw [hillclimbGo_nil] at h
    simp at h
  | cons tw rest ih =>
    intro h
    cases hf : try_transfer_ride rt wcc (σr' tw) ca ctr tw with
    | some res =>
      have hga : hillclimbGo rt wcc σr' ca ctr (tw :: rest) =
          some (applyTransfer rt ca ctr tw res.1 res.2) := by
        rw [hillclimbGo_cons, hf]
      have he : out = applyTransfer rt ca ctr tw res.1 res.2 :=
        Option.some_inj.mp (h.symm.trans hga)
      exact ⟨tw, List.mem_cons_self _ _, res, hf, he⟩
    | none =>
      have hga : hillclimbGo rt wcc σr' ca ctr (tw :: rest) =
          hillclimbGo rt wcc σr' ca ctr rest := by
        rw [hillclimbGo_cons, hf]
      rw [hga] at h
      obtain ⟨tw', htw', res, hres, hout⟩ := ih h
      exact ⟨tw', List.mem_cons_of_mem _ htw', res, hres, hout⟩

theorem hillclimb_spec {rt : TimeMap} {wcc : CapMap}
    {σw : Assignment × TimeMap → List String → List String}
    {σr : Assignment × TimeMap → String → List String → List String}
    {ca : Assignment} {ctr : TimeMap} {out : Assignment × TimeMap}
    (Hσw : ∀ s l, (σw s l).Perm l) (Hσr : ∀ s t l, (σr s t l).Perm l)
    (h : hillclimb rt wcc σw σr ca ctr = some out) :
    ∃ tw ride aw,
      tw ∈ wcc.map Prod.fst ∧ (ride, tw) ∈ ca ∧ aw ≠ tw ∧
      capableB wcc ride aw = true ∧ aw ∈ wcc.map Prod.fst ∧
      should_transfer (alookupD ctr aw 0) (alookupD ctr tw 0)
        (alookupD rt ride 0) = true ∧
      out = applyTransfer rt ca ctr tw ride aw := by
  unfold hillclimb at h
  obtain ⟨tw, htw, res, hres, hout⟩ := hillclimbGo_spec _ h
  obtain ⟨h1, h2, h3, h4, h5⟩ := try_transfer_spec (Hσr (ca, ctr) tw) hres
  exact ⟨tw, res.1, res.2, ((Hσw (ca, ctr) _).mem_iff).mp htw, h1, h2, h3, h4, h5, hout⟩


/-! Effects of one accepted transfer on the mutable state. -/

theorem applyTransfer_fst (rt : TimeMap) (ca : Assignment) (ctr : TimeMap)
    (tw ride aw : String) :
    (applyTransfer rt ca ctr tw ride aw).1 = updateA ca ride aw := rfl

theorem applyTransfer_snd {aw tw : String} (rt : TimeMap) (ca : Assignment) (ctr : TimeMap)
    (ride : String) (hne : aw ≠ tw) :
    (applyTransfer rt ca ctr tw ride aw).2 =
      updateA (updateA ctr tw (alookupD ctr tw 0 + alookupD rt ride 0)) aw
        (alookupD ctr aw 0 - alookupD rt ride 0) := by
  show updateA (updateA ctr tw (alookupD ctr tw 0 + alookupD rt ride 0)) aw
      (alookupD (updateA ctr tw (alookupD ctr tw 0 + alookupD rt ride 0)) aw 0
        - alookupD rt ride 0) =
    updateA (updateA ctr tw (alookupD ctr tw 0 + alookupD rt ride 0)) aw
      (alookupD ctr aw 0 - alookupD rt ride 0)
  rw [alookupD_updateA_ne _ _ _ hne]

theorem applyTransfer_keys2 (rt : TimeMap) (ca : Assignment) (ctr : TimeMap)
    (tw ride aw : String) :
    (applyTransfer rt ca ctr tw ride aw).2.map Prod.fst = ctr.map Prod.fst := by
  show (updateA (updateA ctr tw (alookupD ctr tw 0 + alookupD rt ride 0)) aw
      (alookupD (updateA ctr tw (alookupD ctr tw 0 + alookupD rt ride 0)) aw 0
        - alookupD rt ride 0)).map Prod.fst = ctr.map Prod.fst
  rw [updateA_keys, updateA_keys]

theorem applyTransfer_lookup_tw {aw tw : String} (rt : TimeMap) (ca : Assignment)
    (ctr : TimeMap) (ride : String) (hne : aw ≠ tw) (htw : tw ∈ ctr.map Prod.fst) :
    alookupD (applyTransfer rt ca ctr tw ride aw).2 tw 0 =
      alookupD ctr tw 0 + alookupD rt ride 0 := by
  rw [applyTransfer_snd rt ca ctr ride hne,
    alookupD_updateA_ne _ _ _ (fun he => hne he.symm),
    alookupD_updateA_self _ _ htw]

theorem applyTransfer_lookup_aw {aw tw : String} (rt : TimeMap) (ca : Assignment)
    (ctr : TimeMap) (ride : String) (hne : aw ≠ tw) (haw : aw ∈ ctr.map Prod.fst) :
    alookupD (applyTransfer rt ca ctr tw ride aw).2 aw 0 =
      alookupD ctr aw 0 - alookupD rt ride 0 := by
  rw [applyTransfer_snd rt ca ctr ride hne]
  have haw1 : aw ∈ (updateA ctr tw (alookupD ctr tw 0 + alookupD rt ride 0)).map Prod.fst := by
    rw [updateA_keys]
    exact haw
  rw [alookupD_updateA_self _ _ haw1]

theorem applyTransfer_lookup_other {aw tw w : String} (rt : TimeMap) (ca : Assignment)
    (ctr : TimeMap) (ride : String) (hne : aw ≠ tw) (hw1 : w ≠ tw) (hw2 : w ≠ aw) :
    alookupD (applyTransfer rt ca ctr tw ride aw).2 w 0 = alookupD ctr w 0 := by
  rw [applyTransfer_snd rt ca ctr ride hne, alookupD_updateA_ne _ _ _ hw2,
    alookupD_updateA_ne _ _ _ hw1]

theorem applyTransfer_mem2 {aw tw : String} {rt : TimeMap} {ca : Assignment}
    {ctr : TimeMap} {ride : String} (hne : aw ≠ tw) {p : String × Int}
    (hp : p ∈ (applyTransfer rt ca ctr tw ride aw).2) :
    p = (aw, alookupD ctr aw 0 - alookupD rt ride 0) ∨
      p = (tw, alookupD ctr tw 0 + alookupD rt ride 0) ∨ p ∈ ctr := by
  rw [applyTransfer_snd rt ca ctr ride hne] at hp
  rcases mem_updateA hp with h | h
  · exact Or.inl h
  · rcases mem_updateA h with h2 | h2
    · exact Or.inr (Or.inl h2)
    · exact Or.inr (Or.inr h2)

theorem applyTransfer_sumSq {aw tw : String} (rt : TimeMap) (ca : Assignment)
    (ctr : TimeMap) (ride : String) (hne : aw ≠ tw)
    (hnd : (ctr.map Prod.fst).Nodup)
    (htw : tw ∈ ctr.map Prod.fst) (haw : aw ∈ ctr.map Prod.fst) :
    sumSq (applyTransfer rt ca ctr tw ride aw).2 =
      sumSq ctr
        - (alookupD ctr tw 0) * (alookupD ctr tw 0)
        - (alookupD ctr aw 0) * (alookupD ctr aw 0)
        + (alookupD ctr tw 0 + alookupD rt ride 0) *
          (alookupD ctr tw 0 + alookupD rt ride 0)
        + (alookupD ctr aw 0 - alookupD rt ride 0) *
          (alookupD ctr aw 0 - alookupD rt ride 0) := by
  rw [applyTransfer_snd rt ca ctr ride hne]
  have hnd1 : ((updateA ctr tw (alookupD ctr tw 0 + alookupD rt ride 0)).map
      Prod.fst).Nodup := by
    rw [updateA_keys]
    exact hnd
  have haw1 : aw ∈ (updateA ctr tw (alookupD ctr tw 0 + alookupD rt ride 0)).map
      Prod.fst := by
    rw [updateA_keys]
    exact haw
  rw [sumSq_updateA _ hnd1 haw1, alookupD_updateA_ne _ _ _ hne,
    sumSq_updateA _ hnd htw]
  ring

/-- All facts each claim needs about one accepted hillclimb move: the key
lists of both maps are unchanged, the pairwise imbalance of the workers
involved strictly decreases, and so does the global sum of squares. -/
theorem hillclimb_step_facts {rt : TimeMap} {wcc : CapMap}
    {σw : Assignment × TimeMap → List String → List String}
    {σr : Assignment × TimeMap → String → List String → List String}
    {ca : Assignment} {ctr : TimeMap} {out : Assignment × TimeMap}
    (HwccN : (wcc.map Prod.fst).Nodup)
    (Hσw : ∀ s l, (σw s l).Perm l) (Hσr : ∀ s t l, (σr s t l).Perm l)
    (hkeys : ctr.map Prod.fst = wcc.map Prod.fst)
    (h : hillclimb rt wcc σw σr ca ctr = some out) :
    out.2.map Prod.fst = ctr.map Prod.fst ∧ out.1.map Prod.fst = ca.map Prod.fst ∧
      sumSq out.2 < sumSq ctr ∧
      ∃ tw aw, aw ≠ tw ∧
        (alookupD out.2 aw 0 - alookupD out.2 tw 0).natAbs <
          (alookupD ctr aw 0 - alookupD ctr tw 0).natAbs := by
  obtain ⟨tw, ride, aw, htw, hride, hne, hcap, haw, hst, hout⟩ := hillclimb_spec Hσw Hσr h
  have htwc : tw ∈ ctr.map Prod.fst := by rw [hkeys]; exact htw
  have hawc : aw ∈ ctr.map Prod.fst := by rw [hkeys]; exact haw
  have hndc : (ctr.map Prod.fst).Nodup := by rw [hkeys]; exact HwccN
  obtain ⟨hlt, hd, hdlt, habs⟩ := should_transfer_spec hst
  refine ⟨?_, ?_, ?_, ?_⟩
  · rw [hout]
    exact applyTransfer_keys2 rt ca ctr tw ride aw
  · rw [hout, applyTransfer_fst, updateA_keys]
  · rw [hout, applyTransfer_sumSq rt ca ctr ride hne hndc htwc hawc]
    nlinarith
  · refine ⟨tw, aw, hne, ?_⟩
    rw [hout, applyTransfer_lookup_aw rt ca ctr ride hne hawc,
      applyTransfer_lookup_tw rt ca ctr ride hne htwc]
    have he : alookupD ctr aw 0 - alookupD rt ride 0 -
        (alookupD ctr tw 0 + alookupD rt ride 0) =
        alookupD ctr aw 0 - alookupD ctr tw 0 - 2 * alookupD rt ride 0 := by
      ring
    rw [he]
    exact habs

/-- One accepted move preserves the full day invariant (coverage size,
capability, budget tracking, non-negativity). -/
theorem hillclimb_preserves {wt : Int} {rt : TimeMap} {wcc : CapMap}
    {σw : Assignment × TimeMap → List String → List String}
    {σr : Assignment × TimeMap → String → List String → List String}
    {ca : Assignment} {ctr : TimeMap} {out : Assignment × TimeMap}
    (Hσw : ∀ s l, (σw s l).Perm l) (Hσr : ∀ s t l, (σr s t l).Perm l)
    (hinv : DayInv wt rt wcc ca ctr) (hlen : ca.length = rt.length)
    (h : hillclimb rt wcc σw σr ca ctr = some out) :
    DayInv wt rt wcc out.1 out.2 ∧ out.1.length = rt.length := by
  obtain ⟨tw, ride, aw, htw, hride, hne, hcap, haw, hst, hout⟩ := hillclimb_spec Hσw Hσr h
  obtain ⟨hnd, hpairs, hkeys, htrack, hnn⟩ := hinv
  have htwc : tw ∈ ctr.map Prod.fst := by rw [hkeys]; exact htw
  have hawc : aw ∈ ctr.map Prod.fst := by rw [hkeys]; exact haw
  obtain ⟨hlt, hd, hdlt, _⟩ := should_transfer_spec hst
  have hT0 : 0 ≤ alookupD ctr tw 0 := alookupD_nonneg hnn tw
  have hkeys1 : out.1.map Prod.fst = ca.map Prod.fst := by
    rw [hout, applyTransfer_fst, updateA_keys]
  have hlen1 : out.1.length = ca.length := by
    have := congrArg List.length hkeys1
    simpa using this
  refine ⟨⟨?_, ?_, ?_, ?_, ?_⟩, by rw [hlen1, hlen]⟩
  · rw [hkeys1]
    exact hnd
  · intro p hp
    rw [hout, applyTransfer_fst] at hp
    rcases mem_updateA hp with h2 | h2
    · rw [h2]
      exact ⟨(hpairs (ride, tw) hride).1, hcap⟩
    · exact hpairs p h2
  · rw [hout, applyTransfer_keys2]
    exact hkeys
  · intro w hw
    rw [hout, applyTransfer_fst, assignedSum_updateA rt aw hnd hride w]
    by_cases hwtw : w = tw
    · rw [hwtw, applyTransfer_lookup_tw rt ca ctr ride hne htwc,
        if_neg (hwtw ▸ hne), if_pos rfl]
      have ht := htrack tw htw
      omega
    · by_cases hwaw : w = aw
      · rw [hwaw, applyTransfer_lookup_aw rt ca ctr ride hne hawc,
          if_pos rfl, if_neg (fun he => hwtw (hwaw ▸ he.symm))]
        have ht := htrack aw haw
        omega
      · rw [applyTransfer_lookup_other rt ca ctr ride hne hwtw hwaw,
          if_neg (fun he => hwaw he.symm), if_neg (fun he => hwtw he.symm)]
        have ht := htrack w hw
        omega
  · intro p hp
    rw [hout] at hp
    rcases applyTransfer_mem2 hne hp with h2 | h2 | h2
    · rw [h2]
      simp only
      omega
    · rw [h2]
      simp only
      omega
    · exact hnn p h2

/-! The `while hillclimb(...)` loop. -/

theorem hillclimbRounds_zero (rt : TimeMap) (wcc : CapMap)
    (σw : Assignment × TimeMap → List String → List String)
    (σr : Assignment × TimeMap → String → List String → List String)
    (s : Assignment × TimeMap) : hillclimbRounds rt wcc σw σr 0 s = s := rfl

theorem hillclimbRounds_succ_none {rt : TimeMap} {wcc : CapMap}
    {σw : Assignment × TimeMap → List String → List String}
    {σr : Assignment × TimeMap → String → List String → List String}
    {s : Assignment × TimeMap} (n : Nat) (h : hillclimb rt wcc σw σr s.1 s.2 = none) :
    hillclimbRounds rt wcc σw σr (n + 1) s = s := by
  rw [show hillclimbRounds rt wcc σw σr (n + 1) s =
      (match hillclimb rt wcc σw σr s.1 s.2 with
       | none => s
       | some t => hillclimbRounds rt wcc σw σr n t) from rfl, h]

theorem hillclimbRounds_succ_some {rt : TimeMap} {wcc : CapMap}
    {σw : Assignment × TimeMap → List String → List String}
    {σr : Assignment × TimeMap → String → List String → List String}
    {s t : Assignment × TimeMap} (n : Nat) (h : hillclimb rt wcc σw σr s.1 s.2 = some t) :
    hillclimbRounds rt wcc σw σr (n + 1) s = hillclimbRounds rt wcc σw σr n t := by
  rw [show hillclimbRounds rt wcc σw σr (n + 1) s =
      (match hillclimb rt wcc σw σr s.1 s.2 with
       | none => s
       | some t => hillclimbRounds rt wcc σw σr n t) from rfl, h]

theorem hillclimbRounds_inv {wt : Int} {rt : TimeMap} {wcc : CapMap}
    {σw : Assignment × TimeMap → List String → List String}
    {σr : Assignment × TimeMap → String → List String → List String}
    (Hσw : ∀ s l, (σw s l).Perm l) (Hσr : ∀ s t l, (σr s t l).Perm l) :
    ∀ (n : Nat) (s : Assignment × TimeMap), DayInv wt rt wcc s.1 s.2 →
      s.1.length = rt.length →
      DayInv wt rt wcc (hillclimbRounds rt wcc σw σr n s).1
          (hillclimbRounds rt wcc σw σr n s).2 ∧
        (hillclimbRounds rt wcc σw σr n s).1.length = rt.length := by
  intro n
  induction n with
  | zero =>
    intro s hinv hlen
    rw [hillclimbRounds_zero]
    exact ⟨hinv, hlen⟩
  | succ n ih =>
    intro s hinv hlen
    cases hh : hillclimb rt wcc σw σr s.1 s.2 with
    | none =>
      rw [hillclimbRounds_succ_none n hh]
      exact ⟨hinv, hlen⟩
    | some t =>
      rw [hillclimbRounds_succ_some n hh]
      obtain ⟨hinv', hlen'⟩ := hillclimb_preserves Hσw Hσr hinv hlen hh
      exact ih t hinv' hlen'

/-- With fuel exceeding the initial sum of squares, the loop reaches a state
`hillclimb` rejects: the Python `while` terminates there. -/
theorem hillclimbRounds_fix {rt : TimeMap} {wcc : CapMap}
    {σw : Assignment × TimeMap → List String → List String}
    {σr : Assignment × TimeMap → String → List String → List String}
    (HwccN : (wcc.map Prod.fst).Nodup)
    (Hσw : ∀ s l, (σw s l).Perm l) (Hσr : ∀ s t l, (σr s t l).Perm l) :
    ∀ (n : Nat) (s : Assignment × TimeMap), s.2.map Prod.fst = wcc.map Prod.fst →
      (sumSq s.2).toNat < n →
      hillclimb rt wcc σw σr (hillclimbRounds rt wcc σw σr n s).1
        (hillclimbRounds rt wcc σw σr n s).2 = none := by
  intro n
  induction n with
  | zero =>
    intro s _ hfuel
    exact absurd hfuel (by omega)
  | succ n ih =>
    intro s hkeys hfuel
    cases hh : hillclimb rt wcc σw σr s.1 s.2 with
    | none =>
      rw [hillclimbRounds_succ_none n hh]
      exact hh
    | some t =>
      rw [hillclimbRounds_succ_some n hh]
      obtain ⟨hk2, _, hdec, _⟩ := hillclimb_step_facts HwccN Hσw Hσr hkeys hh
      apply ih t (hk2.trans hkeys)
      have h0 : 0 ≤ sumSq t.2 := sumSq_nonneg t.2
      omega


/-! Characterization of the week aggregator. -/

/-- The success-mode status prefix. -/
def strSuccess : String := "Generated worker schedule for "

/-- The failure-mode status prefix. -/
def strFailure : String := "Could not find a worker schedule for "

/-- A day is open (nonzero budget) and its search reports Infeasible. -/
def openInfeasible (solver : Int → TimeMap → CapMap → Option Assignment)
    (art : TimeMap) (awcc : CapMap) (di : String × DayInfo) : Bool :=
  (!(di.2.time == 0)) &&
    (solver di.2.time (without_keys art di.2.rides_ua)
      (without_keys awcc di.2.workers_ua)).isNone

/-- The week plan the aggregator produces when every day is feasible:
closed days map to `{}`, open days to the solver's assignment. -/
def planSpec (solver : Int → TimeMap → CapMap → Option Assignment)
    (art : TimeMap) (awcc : CapMap) (days : List (String × DayInfo)) :
    List (String × Assignment) :=
  days.map (fun di =>
    (di.1, if di.2.time = 0 then []
      else (solver di.2.time (without_keys art di.2.rides_ua)
        (without_keys awcc di.2.workers_ua)).getD []))

/-- Names of the open days, in iteration order. -/
def openNames (days : List (String × DayInfo)) : List String :=
  (days.filter (fun di => !(di.2.time == 0))).map Prod.fst

/-- Concatenation with the `", "` separators the source appends. -/
def joinComma : List String → String
  | [] => ""
  | d :: rest => d ++ ", " ++ joinComma rest

/-- The status narrative the aggregator actually produces: only the
infeasible days when any day is infeasible, otherwise only the open
(non-closed) days; closed days are never listed. -/
def statusSpec (solver : Int → TimeMap → CapMap → Option Assignment)
    (art : TimeMap) (awcc : CapMap) (days : List (String × DayInfo)) : String :=
  if days.any (openInfeasible solver art awcc) = true
  then (strFailure ++
    joinComma ((days.filter (openInfeasible solver art awcc)).map Prod.fst)).dropRight 2
  else (strSuccess ++ joinComma (openNames days)).dropRight 2

theorem dictInsert_append {α : Type} {m : List (String × α)} {k : String} (v : α)
    (h : k ∉ m.map Prod.fst) : dictInsert m k v = m ++ [(k, v)] := by
  unfold dictInsert
  rw [if_neg h]

theorem genGo_nil (solver : Int → TimeMap → CapMap → Option Assignment)
    (art : TimeMap) (awcc : CapMap) (plan : Option (List (String × Assignment)))
    (succ : Bool) (st : String) :
    genMultipleGo solver art awcc [] plan succ st = some (plan, st.dropRight 2) := rfl

theorem genGo_cons (solver : Int → TimeMap → CapMap → Option Assignment)
    (art : TimeMap) (awcc : CapMap) (day : String) (info : DayInfo)
    (rest : List (String × DayInfo)) (plan : Option (List (String × Assignment)))
    (succ : Bool) (st : String) :
    genMultipleGo solver art awcc ((day, info) :: rest) plan succ st =
      (if info.time = 0 then
        match plan with
        | none => none
        | some p => genMultipleGo solver art awcc rest (some (dictInsert p day [])) succ st
      else
        match solver info.time (without_keys art info.rides_ua)
            (without_keys awcc info.workers_ua) with
        | none =>
          bif succ then
            genMultipleGo solver art awcc rest none false (strFailure ++ day ++ ", ")
          else
            genMultipleGo solver art awcc rest plan succ (st ++ day ++ ", ")
        | some a =>
          bif succ then
            match plan with
            | none => none
            | some p =>
              genMultipleGo solver art awcc rest (some (dictInsert p day a)) succ
                (st ++ day ++ ", ")
          else
            genMultipleGo solver art awcc rest plan succ st) := rfl

theorem genGo_closed_none {info : DayInfo} (solver : Int → TimeMap → CapMap → Option Assignment)
    (art : TimeMap) (awcc : CapMap) (day : String) (rest : List (String × DayInfo))
    (succ : Bool) (st : String) (ht : info.time = 0) :
    genMultipleGo solver art awcc ((day, info) :: rest) none succ st = none := by
  rw [genGo_cons, if_pos ht]

theorem genGo_closed_some {info : DayInfo} (solver : Int → TimeMap → CapMap → Option Assignment)
    (art : TimeMap) (awcc : CapMap) (day : String) (rest : List (String × DayInfo))
    (p : List (String × Assignment)) (succ : Bool) (st : String) (ht : info.time = 0) :
    genMultipleGo solver art awcc ((day, info) :: rest) (some p) succ st =
      genMultipleGo solver art awcc rest (some (dictInsert p day [])) succ st := by
  rw [genGo_cons, if_pos ht]

theorem genGo_inf_true {info : DayInfo}
    {solver : Int → TimeMap → CapMap → Option Assignment} {art : TimeMap} {awcc : CapMap}
    (day : String) (rest : List (String × DayInfo))
    (plan : Option (List (String × Assignment))) (st : String) (ht : ¬info.time = 0)
    (hs : solver info.time (without_keys art info.rides_ua)
      (without_keys awcc info.workers_ua) = none) :
    genMultipleGo solver art awcc ((day, info) :: rest) plan true st =
      genMultipleGo solver art awcc rest none false (strFailure ++ day ++ ", ") := by
  rw [genGo_cons, if_neg ht, hs]
  rfl

theorem genGo_inf_false {info : DayInfo}
    {solver : Int → TimeMap → CapMap → Option Assignment} {art : TimeMap} {awcc : CapMap}
    (day : String) (rest : List (String × DayInfo))
    (plan : Option (List (String × Assignment))) (st : String) (ht : ¬info.time = 0)
    (hs : solver info.time (without_keys art info.rides_ua)
      (without_keys awcc info.workers_ua) = none) :
    genMultipleGo solver art awcc ((day, info) :: rest) plan false st =
      genMultipleGo solver art awcc rest plan false (st ++ day ++ ", ") := by
  rw [genGo_cons, if_neg ht, hs]
  rfl

theorem genGo_found_true {info : DayInfo}
    {solver : Int → TimeMap → CapMap → Option Assignment} {art : TimeMap} {awcc : CapMap}
    {a : Assignment} (day : String) (rest : List (String × DayInfo))
    (p : List (String × Assignment)) (st : String) (ht : ¬info.time = 0)
    (hs : solver info.time (without_keys art info.rides_ua)
      (without_keys awcc info.workers_ua) = some a) :
    genMultipleGo solver art awcc ((day, info) :: rest) (some p) true st =
      genMultipleGo solver art awcc rest (some (dictInsert p day a)) true
        (st ++ day ++ ", ") := by
  rw [genGo_cons, if_neg ht, hs]
  rfl

theorem genGo_found_false {info : DayInfo}
    {solver : Int → TimeMap → CapMap → Option Assignment} {art : TimeMap} {awcc : CapMap}
    {a : Assignment} (day : String) (rest : List (String × DayInfo))
    (plan : Option (List (String × Assignment))) (st : String) (ht : ¬info.time = 0)
    (hs : solver info.time (without_keys art info.rides_ua)
      (without_keys awcc info.workers_ua) = some a) :
    genMultipleGo solver art awcc ((day, info) :: rest) plan false st =
      genMultipleGo solver art awcc rest plan false st := by
  rw [genGo_cons, if_neg ht, hs]
  rfl

/-- After the first infeasible day the aggregator runs with `plan = None`:
it crashes (`none`) at the first closed day it meets, and otherwise appends
exactly the names of the further infeasible days. -/
theorem genGo_fail (solver : Int → TimeMap → CapMap → Option Assignment)
    (art : TimeMap) (awcc : CapMap) :
    ∀ (days : List (String × DayInfo)) (st : String),
      genMultipleGo solver art awcc days none false st =
        if days.any (fun di => di.2.time == 0) then none
        else some (none,
          (st ++ joinComma
            ((days.filter (openInfeasible solver art awcc)).map Prod.fst)).dropRight 2) := by
  intro days
  induction days with
  | nil =>
    intro st
    rw [genGo_nil]
    simp [joinComma]
  | cons di rest ih =>
    intro st
    obtain ⟨day, info⟩ := di
    by_cases ht : info.time = 0
    · rw [genGo_closed_none solver art awcc day rest false st ht]
      rw [if_pos (by simp [List.any_cons, ht])]
    · have hany : ((day, info) :: rest).any (fun di => di.2.time == 0) =
          rest.any (fun di => di.2.time == 0) := by
        simp [List.any_cons, ht]
      cases hs : solver info.time (without_keys art info.rides_ua)
          (without_keys awcc info.workers_ua) with
      | none =>
        rw [genGo_inf_false day rest none st ht hs, ih]
        rw [hany]
        have hfil : ((day, info) :: rest).filter (openInfeasible solver art awcc) =
            (day, info) :: rest.filter (openInfeasible solver art awcc) := by
          rw [List.filter_cons]
          have : openInfeasible solver art awcc (day, info) = true := by
            unfold openInfeasible
            rw [Bool.and_eq_true]
            constructor
            · simp [ht]
            · rw [hs]
              rfl
          rw [this]
          simp
        rw [hfil, List.map_cons]
        cases hra : rest.any (fun di => di.2.time == 0) with
        | true => simp
        | false =>
          simp [joinComma, String.append_assoc]
      | some a =>
        rw [genGo_found_false day rest none st ht hs, ih]
        rw [hany]
        have hfil : ((day, info) :: rest).filter (openInfeasible solver art awcc) =
            rest.filter (openInfeasible solver art awcc) := by
          rw [List.filter_cons]
          have : openInfeasible solver art awcc (day, info) = false := by
            unfold openInfeasible
            rw [hs]
            simp
          rw [this]
          simp
        rw [hfil]


theorem str_append_empty (s : String) : s ++ "" = s := by
  apply String.ext
  rw [String.data_append]
  simp

/-- Full characterization of the aggregator run from a success-mode
accumulator: the final plan is `None` exactly when some open day is
infeasible, a returned plan extends the accumulator with `planSpec`, and the
status string is the accumulated prefix plus the open-day names on success,
or the failure prefix plus the infeasible-day names otherwise. -/
theorem genGo_ok {solver : Int → TimeMap → CapMap → Option Assignment}
    {art : TimeMap} {awcc : CapMap} :
    ∀ (days : List (String × DayInfo)) (p0 : List (String × Assignment)) (st : String),
      (∀ di ∈ days, di.1 ∉ p0.map Prod.fst) → (days.map Prod.fst).Nodup →
      ∀ (plan : Option (List (String × Assignment))) (status : String),
      genMultipleGo solver art awcc days (some p0) true st = some (plan, status) →
      ((plan = none ↔ days.any (openInfeasible solver art awcc) = true) ∧
        (∀ p, plan = some p → p = p0 ++ planSpec solver art awcc days) ∧
        status = (if days.any (openInfeasible solver art awcc) = true
          then strFailure ++
            joinComma ((days.filter (openInfeasible solver art awcc)).map Prod.fst)
          else st ++ joinComma (openNames days)).dropRight 2) := by
  intro days
  induction days with
  | nil =>
    intro p0 st _ _ plan status h
    rw [genGo_nil] at h
    have h2 := Option.some_inj.mp h
    rw [Prod.mk.injEq] at h2
    obtain ⟨hplan, hstatus⟩ := h2
    refine ⟨?_, ?_, ?_⟩
    · rw [← hplan]
      simp
    · intro p hp
      rw [← hplan] at hp
      have : p0 = p := Option.some_inj.mp hp
      rw [← this]
      simp [planSpec]
    · rw [← hstatus]
      simp only [List.any_nil, openNames, List.filter_nil, List.map_nil, joinComma]
      rw [if_neg (by simp), str_append_empty]
  | cons di rest ih =>
    obtain ⟨day, info⟩ := di
    intro p0 st hdisj hnd plan status h
    simp only [List.map_cons, List.nodup_cons] at hnd
    have hdaynp0 : day ∉ p0.map Prod.fst := hdisj (day, info) (List.mem_cons_self _ _)
    by_cases ht : info.time = 0
    · rw [genGo_closed_some solver art awcc day rest p0 true st ht,
        dictInsert_append _ hdaynp0] at h
      have hdisj' : ∀ di ∈ rest, di.1 ∉ (p0 ++ [(day, [])]).map Prod.fst := by
        intro di hdi
        rw [List.map_append]
        simp only [List.mem_append, List.map_cons, List.map_nil,
          List.mem_singleton, not_or]
        refine ⟨hdisj di (List.mem_cons_of_mem _ hdi), ?_⟩
        intro he
        exact hnd.1 (he ▸ List.mem_map.mpr ⟨di, hdi, rfl⟩)
      obtain ⟨ih1, ih2, ih3⟩ := ih (p0 ++ [(day, [])]) st hdisj' hnd.2 plan status h
      have hop : openInfeasible solver art awcc (day, info) = false := by
        simp [openInfeasible, ht]
      have hany : (((day, info) :: rest).any (openInfeasible solver art awcc)) =
          rest.any (openInfeasible solver art awcc) := by
        simp [List.any_cons, hop]
      have hps : planSpec solver art awcc ((day, info) :: rest) =
          (day, []) :: planSpec solver art awcc rest := by
        simp [planSpec, ht]
      have hfil : ((day, info) :: rest).filter (openInfeasible solver art awcc) =
          rest.filter (openInfeasible solver art awcc) := by
        rw [List.filter_cons, hop]
        simp
      have hon : openNames ((day, info) :: rest) = openNames rest := by
        simp [openNames, List.filter_cons, ht]
      refine ⟨?_, ?_, ?_⟩
      · rw [hany]
        exact ih1
      · intro p hp
        rw [ih2 p hp, hps]
        simp
      · rw [ih3, hany, hfil, hon]
    · cases hs : solver info.time (without_keys art info.rides_ua)
          (without_keys awcc info.workers_ua) with
      | some a =>
        rw [genGo_found_true day rest p0 st ht hs, dictInsert_append _ hdaynp0] at h
        have hdisj' : ∀ di ∈ rest, di.1 ∉ (p0 ++ [(day, a)]).map Prod.fst := by
          intro di hdi
          rw [List.map_append]
          simp only [List.mem_append, List.map_cons, List.map_nil,
            List.mem_singleton, not_or]
          refine ⟨hdisj di (List.mem_cons_of_mem _ hdi), ?_⟩
          intro he
          exact hnd.1 (he ▸ List.mem_map.mpr ⟨di, hdi, rfl⟩)
        obtain ⟨ih1, ih2, ih3⟩ := ih (p0 ++ [(day, a)]) (st ++ day ++ ", ")
          hdisj' hnd.2 plan status h
        have hop : openInfeasible solver art awcc (day, info) = false := by
          simp [openInfeasible, hs]
        have hany : (((day, info) :: rest).any (openInfeasible solver art awcc)) =
            rest.any (openInfeasible solver art awcc) := by
          simp [List.any_cons, hop]
        have hps : planSpec solver art awcc ((day, info) :: rest) =
            (day, a) :: planSpec solver art awcc rest := by
          simp [planSpec, ht, hs]
        have hfil : ((day, info) :: rest).filter (openInfeasible solver art awcc) =
            rest.filter (openInfeasible solver art awcc) := by
          rw [List.filter_cons, hop]
          simp
        have hon : openNames ((day, info) :: rest) = day :: openNames rest := by
          simp [openNames, List.filter_cons, ht]
        refine ⟨?_, ?_, ?_⟩
        · rw [hany]
          exact ih1
        · intro p hp
          rw [ih2 p hp, hps]
          simp
        · rw [ih3, hany, hfil, hon]
          cases hra : rest.any (openInfeasible solver art awcc) with
          | true => simp
          | false =>
            simp [joinComma, String.append_assoc]
      | none =>
        rw [genGo_inf_true day rest (some p0) st ht hs, genGo_fail] at h
        have hop : openInfeasible solver art awcc (day, info) = true := by
          simp [openInfeasible, ht, hs]
        have hany : (((day, info) :: rest).any (openInfeasible solver art awcc)) = true := by
          simp [List.any_cons, hop]
        have hfil : ((day, info) :: rest).filter (openInfeasible solver art awcc) =
            (day, info) :: rest.filter (openInfeasible solver art awcc) := by
          rw [List.filter_cons, hop]
          simp
        cases hrt : rest.any (fun di => di.2.time == 0) with
        | true =>
          rw [hrt] at h
          simp at h
        | false =>
          rw [hrt] at h
          simp only [Bool.false_eq_true, if_false] at h
          have h2 := Option.some_inj.mp h
          rw [Prod.mk.injEq] at h2
          obtain ⟨hplan, hstatus⟩ := h2
          refine ⟨?_, ?_, ?_⟩
          · rw [← hplan, hany]
            simp
          · intro p hp
            rw [← hplan] at hp
            simp at hp
          · rw [← hstatus, hany, hfil, List.map_cons]
            simp [joinComma, String.append_assoc]


theorem genGo_found_none {info : DayInfo}
    {solver : Int → TimeMap → CapMap → Option Assignment} {art : TimeMap} {awcc : CapMap}
    {a : Assignment} (day : String) (rest : List (String × DayInfo)) (st : String)
    (ht : ¬info.time = 0)
    (hs : solver info.time (without_keys art info.rides_ua)
      (without_keys awcc info.workers_ua) = some a) :
    genMultipleGo solver art awcc ((day, info) :: rest) none true st = none := by
  rw [genGo_cons, if_neg ht, hs]
  rfl

/-- The aggregator consults the solver only at nonzero budgets: two solvers
that agree off budget 0 yield identical aggregator results. -/
theorem genGo_solver_congr {art : TimeMap} {awcc : CapMap}
    {s1 s2 : Int → TimeMap → CapMap → Option Assignment}
    (hagree : ∀ t r c, ¬t = 0 → s1 t r c = s2 t r c) :
    ∀ (days : List (String × DayInfo)) (plan : Option (List (String × Assignment)))
      (succ : Bool) (st : String),
      genMultipleGo s1 art awcc days plan succ st =
        genMultipleGo s2 art awcc days plan succ st := by
  intro days
  induction days with
  | nil => intro plan succ st; rfl
  | cons di rest ih =>
    obtain ⟨day, info⟩ := di
    intro plan succ st
    by_cases ht : info.time = 0
    · cases plan with
      | none =>
        rw [genGo_closed_none s1 art awcc day rest succ st ht,
          genGo_closed_none s2 art awcc day rest succ st ht]
      | some p =>
        rw [genGo_closed_some s1 art awcc day rest p succ st ht,
          genGo_closed_some s2 art awcc day rest p succ st ht]
        exact ih _ _ _
    · have hs12 : s1 info.time (without_keys art info.rides_ua)
          (without_keys awcc info.workers_ua) =
          s2 info.time (without_keys art info.rides_ua)
            (without_keys awcc info.workers_ua) := hagree _ _ _ ht
      cases hsv : s2 info.time (without_keys art info.rides_ua)
          (without_keys awcc info.workers_ua) with
      | none =>
        have hs1 : s1 info.time (without_keys art info.rides_ua)
            (without_keys awcc info.workers_ua) = none := hs12.trans hsv
        cases succ with
        | true =>
          rw [genGo_inf_true day rest plan st ht hs1,
            genGo_inf_true day rest plan st ht hsv]
          exact ih _ _ _
        | false =>
          rw [genGo_inf_false day rest plan st ht hs1,
            genGo_inf_false day rest plan st ht hsv]
          exact ih _ _ _
      | some a =>
        have hs1 : s1 info.time (without_keys art info.rides_ua)
            (without_keys awcc info.workers_ua) = some a := hs12.trans hsv
        cases succ with
        | true =>
          cases plan with
          | none =>
            rw [genGo_found_none day rest st ht hs1, genGo_found_none day rest st ht hsv]
          | some p =>
            rw [genGo_found_true day rest p st ht hs1,
              genGo_found_true day rest p st ht hsv]
            exact ih _ _ _
        | false =>
          rw [genGo_found_false day rest plan st ht hs1,
            genGo_found_false day rest plan st ht hsv]
          exact ih _ _ _

theorem planSpec_keys (solver : Int → TimeMap → CapMap → Option Assignment)
    (art : TimeMap) (awcc : CapMap) (days : List (String × DayInfo)) :
    (planSpec solver art awcc days).map Prod.fst = days.map Prod.fst := by
  unfold planSpec
  rw [List.map_map]
  apply List.map_congr_left
  intro di _
  rfl


/-! Concrete shuffle oracles used in witnesses: the identity (the shuffle
that happens to leave the list unchanged) and reversal. -/

def idShuffle : Assignment → List String → List String := fun _ l => l

def idShuffleW : Assignment × TimeMap → List String → List String := fun _ l => l

def idShuffleR : Assignment × TimeMap → String → List String → List String :=
  fun _ _ l => l

def revShuffle : Assignment → List String → List String := fun _ l => l.reverse

theorem idShuffle_perm : ∀ pa l, (idShuffle pa l).Perm l := fun _ l => List.Perm.refl l

theorem idShuffleW_perm : ∀ s l, (idShuffleW s l).Perm l := fun _ l => List.Perm.refl l

theorem idShuffleR_perm : ∀ s t l, (idShuffleR s t l).Perm l :=
  fun _ _ l => List.Perm.refl l

theorem revShuffle_perm : ∀ pa l, (revShuffle pa l).Perm l :=
  fun _ l => List.reverse_perm l

/-! The claims. -/

/-- C1: whenever `generate_day_assignment` returns an assignment (not None),
that assignment's key set equals exactly the key set of `rides_time`
(coverage), every ride is mapped to a worker whose capability set contains
it (capability validity), and every worker's assigned total duration is at
most `worker_time` (budget validity).  Stated under the spec data model
(non-negative budget, distinct ride keys) and for arbitrary shuffle
oracles. -/
theorem claim1_returned_assignment_valid
    (wt : Int) (rt : TimeMap) (wcc : CapMap)
    (σd : Assignment → List String → List String)
    (σw : Assignment × TimeMap → List String → List String)
    (σr : Assignment × TimeMap → String → List String → List String)
    (m : Assignment)
    (HrtN : (rt.map Prod.fst).Nodup) (Hwt : 0 ≤ wt)
    (Hσd : ∀ pa l, (σd pa l).Perm l)
    (Hσw : ∀ s l, (σw s l).Perm l)
    (Hσr : ∀ s t l, (σr s t l).Perm l)
    (h : generate_day_assignment wt rt wcc σd σw σr = some m) :
    (∀ r, r ∈ m.map Prod.fst ↔ r ∈ rt.map Prod.fst) ∧
    (∀ p ∈ m, capableB wcc p.1 p.2 = true) ∧
    (∀ w, assignedSum rt m w ≤ wt) := by
  obtain ⟨hne, hm⟩ := gda_some_elim h
  have hinv0 : DayInv wt rt wcc [] (dayInit wcc wt) := DayInv_init wt rt wcc Hwt
  have hs : DayInv wt rt wcc (dayDfs wt rt wcc σd).1 (dayDfs wt rt wcc σd).2 ∧
      (dayDfs wt rt wcc σd).1.length = rt.length :=
    dfs_sound Hσd (rt.length + 1) [] (dayInit wcc wt) hinv0 hne
  have hr := hillclimbRounds_inv Hσw Hσr ((sumSq (dayDfs wt rt wcc σd).2).toNat + 1)
    (dayDfs wt rt wcc σd) hs.1 hs.2
  rw [hm]
  have hv := dayInv_complete_valid HrtN hr.1 hr.2
  obtain ⟨hvnd, hvcov, hvpairs, hvbud⟩ := hv
  refine ⟨?_, fun p hp => (hvpairs p hp).2, ?_⟩
  · intro r
    constructor
    · intro hrm
      rcases List.mem_map.mp hrm with ⟨p, hp, he⟩
      exact he ▸ (hvpairs p hp).1
    · exact hvcov r
  · intro w
    by_cases hw : w ∈ wcc.map Prod.fst
    · exact hvbud w hw
    · rw [assignedSum_eq_zero]
      · exact Hwt
      · intro p hp he
        exact hw (he ▸ capableB_mem_keys (hvpairs p hp).2)

/-- C1 witness: on a concrete feasible day the theorem's hypotheses hold and
its conclusion is obtained by applying it. -/
theorem claim1_witness :
    (∀ r, r ∈ ([("r1", "w1")] : Assignment).map Prod.fst ↔
        r ∈ ([("r1", 3)] : TimeMap).map Prod.fst) ∧
    (∀ p ∈ ([("r1", "w1")] : Assignment), capableB [("w1", ["r1"])] p.1 p.2 = true) ∧
    (∀ w, assignedSum [("r1", 3)] [("r1", "w1")] w ≤ 5) :=
  claim1_returned_assignment_valid 5 [("r1", 3)] [("w1", ["r1"])]
    idShuffle idShuffleW idShuffleR [("r1", "w1")]
    (by decide) (by decide) idShuffle_perm idShuffleW_perm idShuffleR_perm rfl

/-- C2 counterexample: with an empty `rides_time` the empty assignment is a
complete valid assignment, yet `generate_day_assignment` returns None — the
claim's "returns None only when no such mapping exists" fails there. -/
theorem claim2_counterexample :
    generate_day_assignment 5 [] [("w1", [])] idShuffle idShuffleW idShuffleR = none ∧
      ValidAssignment 5 [] [("w1", [])] [] :=
  ⟨rfl, by decide⟩

/-- C2 amended: for a nonempty `rides_time` (under the spec data model:
distinct ride keys, non-negative budget and durations, shuffles that permute)
`generate_day_assignment` returns None exactly when no complete valid
assignment exists; for empty `rides_time` it always returns None (see the
counterexample and claim C10). -/
theorem claim2_amended_none_iff_infeasible
    (wt : Int) (rt : TimeMap) (wcc : CapMap)
    (σd : Assignment → List String → List String)
    (σw : Assignment × TimeMap → List String → List String)
    (σr : Assignment × TimeMap → String → List String → List String)
    (HrtN : (rt.map Prod.fst).Nodup) (Hwt : 0 ≤ wt) (Hd : ∀ p ∈ rt, 0 ≤ p.2)
    (Hσd : ∀ pa l, (σd pa l).Perm l) (Hne : rt ≠ []) :
    generate_day_assignment wt rt wcc σd σw σr = none ↔
      ¬∃ m, ValidAssignment wt rt wcc m := by
  rw [gda_none_char HrtN Hwt Hd Hσd]
  constructor
  · rintro (hrt | h)
    · exact absurd hrt Hne
    · exact h
  · exact Or.inr

/-- C2 witness: the amended equivalence applied on a concrete nonempty day. -/
theorem claim2_witness :
    generate_day_assignment 5 [("r1", 3)] [("w1", ["r1"])]
        idShuffle idShuffleW idShuffleR = none ↔
      ¬∃ m, ValidAssignment 5 [("r1", 3)] [("w1", ["r1"])] m :=
  claim2_amended_none_iff_infeasible 5 [("r1", 3)] [("w1", ["r1"])]
    idShuffle idShuffleW idShuffleR
    (by decide) (by decide) (by decide) idShuffle_perm (by decide)

/-- C9: for a fixed input and any two families of shuffle orderings,
`generate_day_assignment` returns None in one run iff it returns None in the
other — feasibility is deterministic given the input, even though the
returned assignments may differ. -/
theorem claim9_feasibility_deterministic
    (wt : Int) (rt : TimeMap) (wcc : CapMap)
    (σd1 σd2 : Assignment → List String → List String)
    (σw1 σw2 : Assignment × TimeMap → List String → List String)
    (σr1 σr2 : Assignment × TimeMap → String → List String → List String)
    (HrtN : (rt.map Prod.fst).Nodup) (Hwt : 0 ≤ wt) (Hd : ∀ p ∈ rt, 0 ≤ p.2)
    (Hσd1 : ∀ pa l, (σd1 pa l).Perm l) (Hσd2 : ∀ pa l, (σd2 pa l).Perm l) :
    (generate_day_assignment wt rt wcc σd1 σw1 σr1 = none ↔
      generate_day_assignment wt rt wcc σd2 σw2 σr2 = none) := by
  rw [gda_none_char HrtN Hwt Hd Hσd1, gda_none_char HrtN Hwt Hd Hσd2]

/-- C9 witness: two genuinely different orderings (identity and reversal) on
a concrete input. -/
theorem claim9_witness :
    (generate_day_assignment 16 [("A", 10), ("B", 5), ("C", 1)]
        [("w1", ["A", "B", "C"]), ("w2", ["B", "C"])]
        idShuffle idShuffleW idShuffleR = none ↔
      generate_day_assignment 16 [("A", 10), ("B", 5), ("C", 1)]
        [("w1", ["A", "B", "C"]), ("w2", ["B", "C"])]
        revShuffle idShuffleW idShuffleR = none) :=
  claim9_feasibility_deterministic 16 [("A", 10), ("B", 5), ("C", 1)]
    [("w1", ["A", "B", "C"]), ("w2", ["B", "C"])]
    idShuffle revShuffle idShuffleW idShuffleW idShuffleR idShuffleR
    (by decide) (by decide) (by decide) idShuffle_perm revShuffle_perm

/-- C10: with an empty `rides_time` map, `generate_day_assignment` returns
None rather than the empty assignment: dfs's empty-dict success value is
indistinguishable from its empty-dict failure sentinel. -/
theorem claim10_empty_rides_returns_none
    (wt : Int) (wcc : CapMap)
    (σd : Assignment → List String → List String)
    (σw : Assignment × TimeMap → List String → List String)
    (σr : Assignment × TimeMap → String → List String → List String) :
    generate_day_assignment wt [] wcc σd σw σr = none :=
  (gda_none_iff_dfs wt [] wcc σd σw σr).mpr rfl

/-- C4: every transfer the hillclimber applies preserves validity: the
assignment's key set is unchanged, the transferred ride ends up at a worker
whose capability set contains it with the accepting worker's prior remaining
time minus the ride's duration still non-negative, and (given non-negative
remaining times before the move) every remaining time stays non-negative. -/
theorem claim4_transfer_preserves_validity
    (rt : TimeMap) (wcc : CapMap)
    (σw : Assignment × TimeMap → List String → List String)
    (σr : Assignment × TimeMap → String → List String → List String)
    (ca : Assignment) (ctr : TimeMap) (out : Assignment × TimeMap)
    (Hσw : ∀ s l, (σw s l).Perm l) (Hσr : ∀ s t l, (σr s t l).Perm l)
    (Hnn : ∀ p ∈ ctr, 0 ≤ p.2)
    (h : hillclimb rt wcc σw σr ca ctr = some out) :
    out.1.map Prod.fst = ca.map Prod.fst ∧
    (∀ p ∈ out.2, 0 ≤ p.2) ∧
    (∃ ride aw, alookup out.1 ride = some aw ∧ capableB wcc ride aw = true ∧
      0 ≤ alookupD ctr aw 0 - alookupD rt ride 0) := by
  obtain ⟨tw, ride, aw, htw, hride, hne, hcap, haw, hst, hout⟩ := hillclimb_spec Hσw Hσr h
  obtain ⟨hlt, hd, hdlt, _⟩ := should_transfer_spec hst
  have hT0 : 0 ≤ alookupD ctr tw 0 := alookupD_nonneg Hnn tw
  refine ⟨?_, ?_, ride, aw, ?_, hcap, by omega⟩
  · rw [hout, applyTransfer_fst, updateA_keys]
  · intro p hp
    rw [hout] at hp
    rcases applyTransfer_mem2 hne hp with h2 | h2 | h2
    · rw [h2]
      simp only
      omega
    · rw [h2]
      simp only
      omega
    · exact Hnn p h2
  · rw [hout, applyTransfer_fst]
    exact alookup_updateA_self aw (List.mem_map.mpr ⟨(ride, tw), hride, rfl⟩)

/-- C4 witness: a concrete accepted transfer (ride r1 moves from w1 to w2). -/
theorem claim4_witness :
    (([("r1", "w2")], [("w1", 6), ("w2", 6)]) : Assignment × TimeMap).1.map Prod.fst =
        ([("r1", "w1")] : Assignment).map Prod.fst ∧
    (∀ p ∈ (([("r1", "w2")], [("w1", 6), ("w2", 6)]) : Assignment × TimeMap).2, 0 ≤ p.2) ∧
    (∃ ride aw,
      alookup (([("r1", "w2")], [("w1", 6), ("w2", 6)]) : Assignment × TimeMap).1 ride =
          some aw ∧
        capableB [("w1", ["r1"]), ("w2", ["r1"])] ride aw = true ∧
        0 ≤ alookupD ([("w1", 2), ("w2", 10)] : TimeMap) aw 0 -
          alookupD ([("r1", 4)] : TimeMap) ride 0) :=
  claim4_transfer_preserves_validity [("r1", 4)] [("w1", ["r1"]), ("w2", ["r1"])]
    idShuffleW idShuffleR [("r1", "w1")] [("w1", 2), ("w2", 10)]
    ([("r1", "w2")], [("w1", 6), ("w2", 6)])
    idShuffleW_perm idShuffleR_perm (by decide) rfl

/-- C5: the balancer loop terminates after finitely many accepted moves:
every accepted move strictly decreases `|remaining[A] - remaining[T]|` for
the pair involved and strictly decreases the non-negative global sum of
squares (so the process cannot cycle), and the loop run with fuel
`sumSq + 1` reaches a state in which `hillclimb` accepts no further
single-task transfer. -/
theorem claim5_balancer_terminates
    (rt : TimeMap) (wcc : CapMap)
    (σw : Assignment × TimeMap → List String → List String)
    (σr : Assignment × TimeMap → String → List String → List String)
    (HwccN : (wcc.map Prod.fst).Nodup)
    (Hσw : ∀ s l, (σw s l).Perm l) (Hσr : ∀ s t l, (σr s t l).Perm l) :
    (∀ ca ctr out, ctr.map Prod.fst = wcc.map Prod.fst →
      hillclimb rt wcc σw σr ca ctr = some out →
      sumSq out.2 < sumSq ctr ∧
        ∃ tw aw, aw ≠ tw ∧
          (alookupD out.2 aw 0 - alookupD out.2 tw 0).natAbs <
            (alookupD ctr aw 0 - alookupD ctr tw 0).natAbs) ∧
    (∀ ca ctr, ctr.map Prod.fst = wcc.map Prod.fst →
      hillclimb rt wcc σw σr
        (hillclimbRounds rt wcc σw σr ((sumSq ctr).toNat + 1) (ca, ctr)).1
        (hillclimbRounds rt wcc σw σr ((sumSq ctr).toNat + 1) (ca, ctr)).2 = none) := by
  constructor
  · intro ca ctr out hkeys h
    obtain ⟨_, _, hdec, hpair⟩ := hillclimb_step_facts HwccN Hσw Hσr hkeys h
    exact ⟨hdec, hpair⟩
  · intro ca ctr hkeys
    exact hillclimbRounds_fix HwccN Hσw Hσr ((sumSq ctr).toNat + 1) (ca, ctr) hkeys
      (Nat.lt_succ_self _)

/-- C5 witness: the termination facts instantiated on a concrete day. -/
theorem claim5_witness :
    (∀ ca ctr out,
      ctr.map Prod.fst = ([("w1", ["r1"]), ("w2", ["r1"])] : CapMap).map Prod.fst →
      hillclimb [("r1", 4)] [("w1", ["r1"]), ("w2", ["r1"])] idShuffleW idShuffleR ca ctr =
          some out →
      sumSq out.2 < sumSq ctr ∧
        ∃ tw aw, aw ≠ tw ∧
          (alookupD out.2 aw 0 - alookupD out.2 tw 0).natAbs <
            (alookupD ctr aw 0 - alookupD ctr tw 0).natAbs) ∧
    (∀ ca ctr,
      ctr.map Prod.fst = ([("w1", ["r1"]), ("w2", ["r1"])] : CapMap).map Prod.fst →
      hillclimb [("r1", 4)] [("w1", ["r1"]), ("w2", ["r1"])] idShuffleW idShuffleR
        (hillclimbRounds [("r1", 4)] [("w1", ["r1"]), ("w2", ["r1"])] idShuffleW idShuffleR
          ((sumSq ctr).toNat + 1) (ca, ctr)).1
        (hillclimbRounds [("r1", 4)] [("w1", ["r1"]), ("w2", ["r1"])] idShuffleW idShuffleR
          ((sumSq ctr).toNat + 1) (ca, ctr)).2 = none) :=
  claim5_balancer_terminates [("r1", 4)] [("w1", ["r1"]), ("w2", ["r1"])]
    idShuffleW idShuffleR (by decide) idShuffleW_perm idShuffleR_perm


/-- C3: the claim says an Infeasible day never aborts the remaining days'
processing, including when a budget-0 day follows an infeasible day.  The
code disagrees: after the first infeasible day it sets the plan to `None`,
and the closed-day branch then executes `multiple_day_assignments[day] = {}`
on `None`, raising `TypeError` (modelled as the `none` result).  This
theorem evaluates the aggregator, with the real day solver, at that failing
input. -/
theorem claim3_closed_day_after_infeasible_crashes :
    generate_multiple_day_assignments
      (fun t r c => generate_day_assignment t r c idShuffle idShuffleW idShuffleR)
      [("d1", ⟨1, [], []⟩), ("d2", ⟨0, [], []⟩)]
      [("A", 10)] [("w1", [])] = none := rfl

/-- C6 counterexample: a budget-0 day does not yield `{}` in the returned
week plan "regardless of other days' outcomes": when a later day is
infeasible the returned plan is `None` and contains no entry for the closed
day at all. -/
theorem claim6_counterexample :
    generate_multiple_day_assignments
      (fun t r c => generate_day_assignment t r c idShuffle idShuffleW idShuffleR)
      [("d1", ⟨0, [], []⟩), ("d2", ⟨1, [], []⟩)]
      [("A", 10)] [("w1", [])] =
      some (none, "Could not find a worker schedule for d2") := rfl

/-- C6 amended: the aggregator never consults the day solver at budget 0
(its result is unchanged under any modification of the solver off nonzero
budgets), and whenever it returns an actual week plan (no day infeasible,
no crash), every budget-0 day maps to the empty assignment in that plan. -/
theorem claim6_amended_closed_day
    (days : List (String × DayInfo)) (art : TimeMap) (awcc : CapMap)
    (hnd : (days.map Prod.fst).Nodup) :
    (∀ s1 s2 : Int → TimeMap → CapMap → Option Assignment,
      (∀ t r c, ¬t = 0 → s1 t r c = s2 t r c) →
      generate_multiple_day_assignments s1 days art awcc =
        generate_multiple_day_assignments s2 days art awcc) ∧
    (∀ (solver : Int → TimeMap → CapMap → Option Assignment)
        (p : List (String × Assignment)) (st : String),
      generate_multiple_day_assignments solver days art awcc = some (some p, st) →
      ∀ di ∈ days, di.2.time = 0 → alookup p di.1 = some []) := by
  constructor
  · intro s1 s2 hagree
    exact genGo_solver_congr hagree days (some []) true strSuccess
  · intro solver p st h
    obtain ⟨_, ih2, _⟩ := genGo_ok days [] strSuccess (by simp) hnd (some p) st h
    have hp : p = planSpec solver art awcc days := by
      have := ih2 p rfl
      simpa using this
    intro di hdi ht
    have hmem : (di.1, ([] : Assignment)) ∈ planSpec solver art awcc days := by
      unfold planSpec
      refine List.mem_map.mpr ⟨di, hdi, ?_⟩
      rw [if_pos ht]
    have hnd2 : ((planSpec solver art awcc days).map Prod.fst).Nodup := by
      rw [planSpec_keys]
      exact hnd
    rw [hp]
    exact alookup_of_mem_nodup hmem hnd2

/-- C6 witness: the amended theorem applied to a concrete week with a single
closed day. -/
theorem claim6_witness :
    alookup [("mon", ([] : Assignment))] "mon" = some [] :=
  (claim6_amended_closed_day [("mon", ⟨0, [], []⟩)] [] [] (by decide)).2
    (fun _ _ _ => none) [("mon", [])] "Generated worker schedule fo" rfl
    ("mon", ⟨0, [], []⟩) (List.mem_singleton.mpr rfl) rfl

/-- C7: when the aggregator returns a pair, its first element is None
exactly when at least one open day's search reports Infeasible; when no day
is infeasible it is the mapping with one entry per day, closed days mapping
to `{}` and open days to their assignments (`planSpec`). -/
theorem claim7_week_plan_none_iff
    (solver : Int → TimeMap → CapMap → Option Assignment)
    (days : List (String × DayInfo)) (art : TimeMap) (awcc : CapMap)
    (plan : Option (List (String × Assignment))) (status : String)
    (hnd : (days.map Prod.fst).Nodup)
    (h : generate_multiple_day_assignments solver days art awcc = some (plan, status)) :
    ((plan = none) ↔ days.any (openInfeasible solver art awcc) = true) ∧
    (∀ p, plan = some p → p = planSpec solver art awcc days) := by
  obtain ⟨ih1, ih2, _⟩ := genGo_ok days [] strSuccess (by simp) hnd plan status h
  refine ⟨ih1, ?_⟩
  intro p hp
  have := ih2 p hp
  simpa using this

/-- C7 witness: a concrete two-day week (one closed, one feasible). -/
theorem claim7_witness :
    ((some [("mon", []), ("tue", [("A", "w1")])] =
        (none : Option (List (String × Assignment)))) ↔
      ([("mon", (⟨0, [], []⟩ : DayInfo)), ("tue", ⟨5, [], []⟩)].any
        (openInfeasible (fun _ _ _ => some [("A", "w1")]) [("A", 2)] [("w1", ["A"])])
        = true)) ∧
    (∀ p, (some [("mon", []), ("tue", [("A", "w1")])] :
        Option (List (String × Assignment))) = some p →
      p = planSpec (fun _ _ _ => some [("A", "w1")]) [("A", 2)] [("w1", ["A"])]
        [("mon", ⟨0, [], []⟩), ("tue", ⟨5, [], []⟩)]) :=
  claim7_week_plan_none_iff (fun _ _ _ => some [("A", "w1")])
    [("mon", ⟨0, [], []⟩), ("tue", ⟨5, [], []⟩)] [("A", 2)] [("w1", ["A"])]
    (some [("mon", []), ("tue", [("A", "w1")])])
    "Generated worker schedule for tue" (by decide) rfl

/-- C8 counterexample: a week with a single successfully closed day.  The
returned narrative is the success prefix with its last two characters cut
off; it does not list the closed day "mon" at all (the characters of "mon"
are not an infix of the narrative), refuting "lists every day that was
planned or closed successfully". -/
theorem claim8_counterexample :
    generate_multiple_day_assignments (fun _ _ _ => none)
        [("mon", ⟨0, [], []⟩)] [] [] =
      some (some [("mon", [])], "Generated worker schedule fo") ∧
    ¬ List.IsInfix "mon".data "Generated worker schedule fo".data :=
  ⟨rfl, by decide⟩

/-- C8 amended: the narrative lists, in iteration order, exactly the open
feasible days (after the success prefix) when no day is infeasible, and
exactly the infeasible days (after the failure prefix) when some day is;
closed days are never listed, successfully planned days are not listed once
a failure occurred, and the trailing two characters are always cut. -/
theorem claim8_amended_status_narrative
    (solver : Int → TimeMap → CapMap → Option Assignment)
    (days : List (String × DayInfo)) (art : TimeMap) (awcc : CapMap)
    (plan : Option (List (String × Assignment))) (status : String)
    (hnd : (days.map Prod.fst).Nodup)
    (h : generate_multiple_day_assignments solver days art awcc = some (plan, status)) :
    status = statusSpec solver art awcc days := by
  obtain ⟨_, _, ih3⟩ := genGo_ok days [] strSuccess (by simp) hnd plan status h
  rw [ih3]
  unfold statusSpec
  cases ha : days.any (openInfeasible solver art awcc) with
  | true => simp
  | false => simp

/-- C8 witness: the amended narrative equation on a concrete week with one
closed and one feasible open day. -/
theorem claim8_witness :
    "Generated worker schedule for tue" =
      statusSpec (fun _ _ _ => some [("A", "w1")]) [("A", 2)] [("w1", ["A"])]
        [("mon", ⟨0, [], []⟩), ("tue", ⟨5, [], []⟩)] :=
  claim8_amended_status_narrative (fun _ _ _ => some [("A", "w1")])
    [("mon", ⟨0, [], []⟩), ("tue", ⟨5, [], []⟩)] [("A", 2)] [("w1", ["A"])]
    (some [("mon", []), ("tue", [("A", "w1")])])
    "Generated worker schedule for tue" (by decide) rfl

end Ridechecks
